import Mathlib

/-!
Shallow embedding of the core of the `next-document-research` repository:
the word chunker (`src/lib/server/chunking.ts`), the ingestion orchestrator
(`src/lib/server/documents.ts`), the tag filter
(`src/lib/server/documents.ts`), and the hybrid search action
(`searchDocumentsAction` in the server actions file).

Strings are Lean `String`s; JavaScript numbers that can be fractional
(vector distances, scores) are embedded as `Rat`; page counters and indices
are `Nat`.  JavaScript `Map`s are embedded as association lists with
`Map.set` semantics (update in place, append new keys at the end), which
preserves JavaScript's insertion-order iteration.
-/

namespace DocResearch

/-! ### String helpers shared by several components -/

/-- `needle.isPrefixOf`-based substring test on character lists; embeds the
JavaScript `hay.includes(needle)` test (note `includes("")` is `true`). -/
def containsChars (hay needle : List Char) : Bool :=
  if needle.isPrefixOf hay then true
  else
    match hay with
    | [] => false
    | _ :: t => containsChars t needle

/-- JavaScript `hay.includes(needle)` on strings. -/
def containsSub (hay needle : String) : Bool :=
  containsChars hay.toList needle.toList

/-- Index of the first occurrence of `needle` in `hay`; embeds
JavaScript `hay.indexOf(needle)` (`none` for `-1`). -/
def firstMatchIdx (hay needle : List Char) : Option Nat :=
  if needle.isPrefixOf hay then some 0
  else
    match hay with
    | [] => none
    | _ :: t => (firstMatchIdx t needle).map (· + 1)

/-- `s.slice(0, n)` for strings, by characters. -/
def strTake (s : String) (n : Nat) : String :=
  String.mk (s.toList.take n)

/-! ### Chunker (`src/lib/server/chunking.ts`) -/

/-- A page of extracted text, as in `TextPage` of `chunking.ts`. -/
structure TextPage where
  page : Nat
  text : String
deriving DecidableEq

/-- An emitted chunk, as in `TextChunk` of `chunking.ts`.  The source stores
the joined string `words.join(" ")` in its `text` field; we keep the word
list and recover the source's `text` via `chunkText`. -/
structure TextChunk where
  chunkId : String
  chunkIndex : Nat
  pageStart : Nat
  pageEnd : Nat
  words : List String
deriving DecidableEq

/-- The `text` field of a source `TextChunk`: `carryWords.join(" ")`. -/
def chunkText (c : TextChunk) : String :=
  String.intercalate " " c.words

/-- Maximal runs of non-whitespace characters (`acc` is the current run,
reversed). -/
def wordRuns : List Char → List Char → List (List Char)
  | [], acc => if acc = [] then [] else [acc.reverse]
  | c :: rest, acc =>
    if c.isWhitespace then
      if acc = [] then wordRuns rest []
      else acc.reverse :: wordRuns rest []
    else wordRuns rest (c :: acc)

/-- `value.trim().split(/\s+/).filter(Boolean)` from `chunking.ts`: the
maximal non-whitespace runs of the string (trimming and dropping the empty
fragments produced by `split` is exactly run extraction). -/
def splitWords (value : String) : List String :=
  (wordRuns value.toList []).map String.mk

/-- The mutable loop state of `buildChunks`. -/
structure ChunkState where
  chunks : List TextChunk
  chunkIndex : Nat
  carryWords : List String
  carryStartPage : Option Nat
  carryEndPage : Option Nat
deriving DecidableEq

/-- `` `${documentId}:chunk:${chunkIndex}` ``. -/
def mkChunkId (documentId : String) (chunkIndex : Nat) : String :=
  documentId ++ ":chunk:" ++ toString chunkIndex

/-- The body of the inner `for (const word of words)` loop of `buildChunks`:
record the word's page, push the word, and emit a chunk once the buffer
reaches `chunkSize` words.  `carryWords.slice(Math.max(0, chunkSize -
overlap))` is `List.drop (chunkSize - overlap)` (truncated subtraction). -/
def pushWord (documentId : String) (chunkSize overlap : Nat)
    (s : ChunkState) (page : Nat) (word : String) : ChunkState :=
  let carryStartPage : Nat := s.carryStartPage.getD page
  let carryEndPage : Nat := page
  let carryWords : List String := s.carryWords ++ [word]
  if chunkSize ≤ carryWords.length then
    { chunks := s.chunks ++
        [{ chunkId := mkChunkId documentId s.chunkIndex
           chunkIndex := s.chunkIndex
           pageStart := carryStartPage
           pageEnd := carryEndPage
           words := carryWords }]
      chunkIndex := s.chunkIndex + 1
      carryWords := carryWords.drop (chunkSize - overlap)
      carryStartPage := some carryEndPage
      carryEndPage := some carryEndPage }
  else
    { chunks := s.chunks
      chunkIndex := s.chunkIndex
      carryWords := carryWords
      carryStartPage := some carryStartPage
      carryEndPage := some carryEndPage }

/-- One iteration of the outer `for (const page of pages)` loop: empty pages
are skipped, otherwise every word of the page is pushed. -/
def pushPage (documentId : String) (chunkSize overlap : Nat)
    (s : ChunkState) (page : TextPage) : ChunkState :=
  let words := splitWords page.text
  if words = [] then s
  else words.foldl (fun s1 w => pushWord documentId chunkSize overlap s1 page.page w) s

/-- The trailing `if (carryWords.length > 0 && carryStartPage !== null)`
block of `buildChunks`, emitting the final partial chunk. -/
def flushChunks (documentId : String) (s : ChunkState) : List TextChunk :=
  match s.carryStartPage with
  | none => s.chunks
  | some start =>
    if 0 < s.carryWords.length then
      s.chunks ++
        [{ chunkId := mkChunkId documentId s.chunkIndex
           chunkIndex := s.chunkIndex
           pageStart := start
           pageEnd := s.carryEndPage.getD start
           words := s.carryWords }]
    else s.chunks

/-- Initial loop state of `buildChunks`. -/
def initChunkState : ChunkState :=
  { chunks := [], chunkIndex := 0, carryWords := [],
    carryStartPage := none, carryEndPage := none }

/-- `buildChunks(documentId, pages, chunkSize, overlap)` from `chunking.ts`
(the source defaults are `chunkSize = 260`, `overlap = 80`). -/
def buildChunks (documentId : String) (pages : List TextPage)
    (chunkSize overlap : Nat) : List TextChunk :=
  flushChunks documentId
    (pages.foldl (pushPage documentId chunkSize overlap) initChunkState)

/-- The word sequence of a document: all pages' words in order. -/
def allWords (pages : List TextPage) : List String :=
  pages.flatMap (fun p => splitWords p.text)

/-- Concatenation of the first chunk with every subsequent chunk minus its
first `overlap` words (the reconstruction described in the spec). -/
def reconstruct (overlap : Nat) : List TextChunk → List String
  | [] => []
  | c :: rest => c.words ++ rest.flatMap (fun c1 => c1.words.drop overlap)

example :
    (buildChunks "d" [⟨1, "a b c d e"⟩, ⟨2, "f g"⟩] 3 1).map TextChunk.words
      = [["a", "b", "c"], ["c", "d", "e"], ["e", "f", "g"], ["g"]] := by decide

example :
    (buildChunks "d" [⟨1, "a b c"⟩] 2 2).map TextChunk.words
      = [["a", "b"], ["a", "b", "c"], ["a", "b", "c"]] := by decide

example :
    (buildChunks "doc" [⟨1, "  hi   there "⟩, ⟨2, ""⟩, ⟨3, "you"⟩] 260 80).map
        (fun c => (c.chunkId, c.pageStart, c.pageEnd, c.words))
      = [("doc:chunk:0", 1, 3, ["hi", "there", "you"])] := by decide

/-! ### Chunker invariants -/

/-- The adjacency relation between consecutive chunks: the later chunk's
first `overlap` words repeat the earlier chunk's last `overlap` words. -/
def OverlapLink (overlap : Nat) (a b : TextChunk) : Prop :=
  b.words.take overlap = a.words.drop (a.words.length - overlap)

/-- Loop invariant of `buildChunks` (for `overlap < chunkSize`) relating the
state to `ws`, the word sequence consumed so far. -/
structure ReconInv (chunkSize overlap : Nat) (ws : List String) (s : ChunkState) : Prop where
  carry_lt : s.carryWords.length < chunkSize
  start_some : s.carryWords ≠ [] → s.carryStartPage ≠ none
  emitted_size : ∀ c ∈ s.chunks, c.words.length = chunkSize
  base : s.chunks = [] → s.carryWords = ws
  tail_ge : s.chunks ≠ [] → overlap ≤ s.carryWords.length
  recon_eq : s.chunks ≠ [] →
    reconstruct overlap s.chunks ++ s.carryWords.drop overlap = ws
  link : ∀ c, s.chunks.getLast? = some c →
    s.carryWords.take overlap = c.words.drop (c.words.length - overlap)
  chain : List.Chain' (OverlapLink overlap) s.chunks

theorem reconstruct_append (overlap : Nat) (l : List TextChunk) (c : TextChunk)
    (hl : l ≠ []) :
    reconstruct overlap (l ++ [c]) = reconstruct overlap l ++ c.words.drop overlap := by
  cases l with
  | nil => exact absurd rfl hl
  | cons a t => simp [reconstruct]

theorem reconInv_init (chunkSize overlap : Nat) (h : 0 < chunkSize) :
    ReconInv chunkSize overlap [] initChunkState := by
  refine ⟨by simpa [initChunkState] using h, ?_, ?_, ?_, ?_, ?_, ?_, ?_⟩ <;>
    simp [initChunkState, reconstruct]

theorem reconInv_push (documentId : String) (chunkSize overlap page : Nat)
    (word : String) (ws : List String) (s : ChunkState)
    (hov : overlap < chunkSize)
    (hinv : ReconInv chunkSize overlap ws s) :
    ReconInv chunkSize overlap (ws ++ [word])
      (pushWord documentId chunkSize overlap s page word) := by
  by_cases hc : chunkSize ≤ (s.carryWords ++ [word]).length
  · -- the push fills the buffer and emits a chunk
    have hlen : s.carryWords.length + 1 = chunkSize := by
      have := hinv.carry_lt
      simp only [List.length_append, List.length_cons, List.length_nil] at hc
      omega
    have hov_le : overlap ≤ s.carryWords.length := by omega
    have hdrop1 : (s.carryWords ++ [word]).drop overlap
        = s.carryWords.drop overlap ++ [word] :=
      List.drop_append_of_le_length hov_le
    have htake1 : (s.carryWords ++ [word]).take overlap = s.carryWords.take overlap :=
      List.take_append_of_le_length hov_le
    have hfull : (s.carryWords ++ [word]).length = chunkSize := by
      simp [← hlen]
    set c : TextChunk :=
      { chunkId := mkChunkId documentId s.chunkIndex
        chunkIndex := s.chunkIndex
        pageStart := s.carryStartPage.getD page
        pageEnd := page
        words := s.carryWords ++ [word] } with hcdef
    have hc1 : chunkSize ≤ s.carryWords.length + 1 := by omega
    have hpush : pushWord documentId chunkSize overlap s page word =
        { chunks := s.chunks ++ [c]
          chunkIndex := s.chunkIndex + 1
          carryWords := (s.carryWords ++ [word]).drop (chunkSize - overlap)
          carryStartPage := some page
          carryEndPage := some page } := by
      simp [pushWord, hcdef, hc1]
    have hcarry_len : ((s.carryWords ++ [word]).drop (chunkSize - overlap)).length
        = overlap := by
      simp only [List.length_drop, hfull]
      omega
    have hcarry_take : ((s.carryWords ++ [word]).drop (chunkSize - overlap)).take overlap
        = (s.carryWords ++ [word]).drop (chunkSize - overlap) :=
      List.take_of_length_le (by omega)
    have hdrop_all : ((s.carryWords ++ [word]).drop (chunkSize - overlap)).drop overlap
        = [] := by
      apply List.eq_nil_of_length_eq_zero
      simp only [List.length_drop, hcarry_len]
      omega
    rw [hpush]
    refine ⟨?_, ?_, ?_, ?_, ?_, ?_, ?_, ?_⟩
    · simpa [hcarry_len] using hov
    · simp
    · intro x hx
      rcases List.mem_append.mp hx with hx | hx
      · exact hinv.emitted_size x hx
      · simp only [List.mem_singleton] at hx
        subst hx
        simpa [hcdef] using hfull
    · simp
    · intro _
      show overlap ≤ ((s.carryWords ++ [word]).drop (chunkSize - overlap)).length
      omega
    · intro _
      show reconstruct overlap (s.chunks ++ [c]) ++
          ((s.carryWords ++ [word]).drop (chunkSize - overlap)).drop overlap
          = ws ++ [word]
      rw [hdrop_all, List.append_nil]
      rcases hchunks : s.chunks with _ | ⟨a, t⟩
      · have hbase := hinv.base hchunks
        simp [reconstruct, hcdef, hbase]
      · rw [← hchunks, reconstruct_append overlap s.chunks c (by simp [hchunks])]
        have : c.words.drop overlap = s.carryWords.drop overlap ++ [word] := by
          simpa [hcdef] using hdrop1
        rw [this, ← List.append_assoc]
        rw [hinv.recon_eq (by simp [hchunks])]
    · intro c0 hc0
      rw [List.getLast?_concat] at hc0
      injection hc0 with hc0
      show ((s.carryWords ++ [word]).drop (chunkSize - overlap)).take overlap
          = c0.words.drop (c0.words.length - overlap)
      rw [hcarry_take, ← hc0]
      show (s.carryWords ++ [word]).drop (chunkSize - overlap)
          = (s.carryWords ++ [word]).drop ((s.carryWords ++ [word]).length - overlap)
      rw [hfull]
    · rw [List.chain'_append]
      refine ⟨hinv.chain, List.chain'_singleton _, ?_⟩
      intro a ha b hb
      simp only [List.head?_cons, Option.mem_def, Option.some.injEq] at hb
      subst hb
      unfold OverlapLink
      have hwords : c.words.take overlap = s.carryWords.take overlap := by
        simpa [hcdef] using htake1
      rw [hwords]
      exact hinv.link a ha
  · -- the buffer is still short of chunkSize; the word is only buffered
    have hlt : s.carryWords.length + 1 < chunkSize := by
      simp only [List.length_append, List.length_cons, List.length_nil] at hc
      omega
    have hc1 : ¬ chunkSize ≤ s.carryWords.length + 1 := by omega
    have hpush : pushWord documentId chunkSize overlap s page word =
        { chunks := s.chunks
          chunkIndex := s.chunkIndex
          carryWords := s.carryWords ++ [word]
          carryStartPage := some (s.carryStartPage.getD page)
          carryEndPage := some page } := by
      simp [pushWord, hc1]
    rw [hpush]
    refine ⟨?_, ?_, ?_, ?_, ?_, ?_, ?_, ?_⟩
    · simpa using hlt
    · simp
    · exact hinv.emitted_size
    · intro h
      rw [hinv.base h]
    · intro h
      have := hinv.tail_ge h
      simp only [List.length_append, List.length_cons, List.length_nil]
      omega
    · intro h
      rw [List.drop_append_of_le_length (hinv.tail_ge h), ← List.append_assoc,
        hinv.recon_eq h]
    · intro c0 hc0
      have hne : s.chunks ≠ [] := by
        intro habs
        rw [habs] at hc0
        simp at hc0
      rw [List.take_append_of_le_length (hinv.tail_ge hne)]
      exact hinv.link c0 hc0
    · exact hinv.chain

theorem reconInv_foldl (documentId : String) (chunkSize overlap page : Nat)
    (words ws : List String) (s : ChunkState)
    (hov : overlap < chunkSize)
    (hinv : ReconInv chunkSize overlap ws s) :
    ReconInv chunkSize overlap (ws ++ words)
      (words.foldl (fun s1 w => pushWord documentId chunkSize overlap s1 page w) s) := by
  induction words generalizing ws s with
  | nil => simpa using hinv
  | cons w rest ih =>
    have h1 := reconInv_push documentId chunkSize overlap page w ws s hov hinv
    have h2 := ih (ws ++ [w]) _ h1
    have he : (ws ++ [w]) ++ rest = ws ++ (w :: rest) := by simp
    rw [he] at h2
    simpa using h2

theorem reconInv_pushPage (documentId : String) (chunkSize overlap : Nat)
    (p : TextPage) (ws : List String) (s : ChunkState)
    (hov : overlap < chunkSize)
    (hinv : ReconInv chunkSize overlap ws s) :
    ReconInv chunkSize overlap (ws ++ splitWords p.text)
      (pushPage documentId chunkSize overlap s p) := by
  unfold pushPage
  by_cases h : splitWords p.text = []
  · simpa [h] using hinv
  · rw [if_neg h]
    exact reconInv_foldl documentId chunkSize overlap p.page (splitWords p.text) ws s hov hinv

theorem reconInv_pages (documentId : String) (chunkSize overlap : Nat)
    (pages : List TextPage) (ws : List String) (s : ChunkState)
    (hov : overlap < chunkSize)
    (hinv : ReconInv chunkSize overlap ws s) :
    ReconInv chunkSize overlap (ws ++ allWords pages)
      (pages.foldl (pushPage documentId chunkSize overlap) s) := by
  induction pages generalizing ws s with
  | nil => simpa [allWords] using hinv
  | cons p rest ih =>
    have h1 := reconInv_pushPage documentId chunkSize overlap p ws s hov hinv
    have h2 := ih (ws ++ splitWords p.text) _ h1
    have he : (ws ++ splitWords p.text) ++ allWords rest
        = ws ++ allWords (p :: rest) := by
      simp [allWords]
    rw [he] at h2
    simpa using h2

theorem flush_reconInv (documentId : String) (chunkSize overlap : Nat)
    (ws : List String) (s : ChunkState)
    (hinv : ReconInv chunkSize overlap ws s) :
    (∀ c ∈ flushChunks documentId s, c.words.length ≤ chunkSize) ∧
    reconstruct overlap (flushChunks documentId s) = ws ∧
    List.Chain' (OverlapLink overlap) (flushChunks documentId s) := by
  have hnoflush : reconstruct overlap s.chunks ++ s.carryWords = ws →
      s.carryWords = [] →
      reconstruct overlap s.chunks = ws := by
    intro h hc
    simpa [hc] using h
  cases hstart : s.carryStartPage with
  | none =>
    rw [show flushChunks documentId s = s.chunks by rw [flushChunks, hstart]]
    have hcarr : s.carryWords = [] := by
      by_contra h
      exact hinv.start_some h hstart
    refine ⟨fun c hc => le_of_eq (hinv.emitted_size c hc), ?_, hinv.chain⟩
    rcases hch : s.chunks with _ | ⟨a, t⟩
    · have hb := hinv.base hch
      rw [hcarr] at hb
      simp [reconstruct, ← hb]
    · have hr := hinv.recon_eq (by simp [hch])
      rw [hcarr] at hr
      rw [← hch]
      simpa using hr
  | some start =>
    by_cases hpos : 0 < s.carryWords.length
    · rw [show flushChunks documentId s = s.chunks ++
          [{ chunkId := mkChunkId documentId s.chunkIndex
             chunkIndex := s.chunkIndex
             pageStart := start
             pageEnd := s.carryEndPage.getD start
             words := s.carryWords }] by rw [flushChunks, hstart]; exact if_pos hpos]
      refine ⟨?_, ?_, ?_⟩
      · intro c hc
        rcases List.mem_append.mp hc with hc | hc
        · exact le_of_eq (hinv.emitted_size c hc)
        · simp only [List.mem_singleton] at hc
          subst hc
          exact le_of_lt hinv.carry_lt
      · rcases hch : s.chunks with _ | ⟨a, t⟩
        · have hb := hinv.base hch
          simp [hch, reconstruct, hb]
        · rw [← hch,
            reconstruct_append overlap s.chunks _ (by simp [hch])]
          have hr := hinv.recon_eq (by simp [hch])
          simpa using hr
      · rw [List.chain'_append]
        refine ⟨hinv.chain, List.chain'_singleton _, ?_⟩
        intro a ha b hb
        simp only [List.head?_cons, Option.mem_def, Option.some.injEq] at hb
        subst hb
        exact hinv.link a ha
    · rw [show flushChunks documentId s = s.chunks by
        rw [flushChunks, hstart]; exact if_neg hpos]
      have hcarr : s.carryWords = [] := by
        cases hw : s.carryWords with
        | nil => rfl
        | cons x xs => rw [hw] at hpos; simp at hpos
      refine ⟨fun c hc => le_of_eq (hinv.emitted_size c hc), ?_, hinv.chain⟩
      rcases hch : s.chunks with _ | ⟨a, t⟩
      · have hb := hinv.base hch
        rw [hcarr] at hb
        simp [reconstruct, ← hb]
      · have hr := hinv.recon_eq (by simp [hch])
        rw [hcarr] at hr
        rw [← hch]
        simpa using hr

/-- For any `overlap < chunkSize`: chunk word counts are bounded by
`chunkSize`, the overlap-dropping concatenation of the chunks rebuilds the
document word sequence, and consecutive chunks overlap by exactly the last
`overlap` words of the earlier chunk. -/
theorem buildChunks_spec (documentId : String) (pages : List TextPage)
    (chunkSize overlap : Nat) (hov : overlap < chunkSize) :
    (∀ c ∈ buildChunks documentId pages chunkSize overlap,
        c.words.length ≤ chunkSize) ∧
    reconstruct overlap (buildChunks documentId pages chunkSize overlap)
      = allWords pages ∧
    List.Chain' (OverlapLink overlap)
      (buildChunks documentId pages chunkSize overlap) := by
  have h0 := reconInv_init chunkSize overlap (by omega)
  have h1 := reconInv_pages documentId chunkSize overlap pages [] initChunkState hov h0
  simp only [List.nil_append] at h1
  exact flush_reconInv documentId chunkSize overlap (allWords pages) _ h1

/-- If every page tokenizes to zero words, the fold never leaves the initial
state and `buildChunks` emits nothing. -/
theorem buildChunks_empty_pages (documentId : String) (pages : List TextPage)
    (chunkSize overlap : Nat) (h : ∀ p ∈ pages, splitWords p.text = []) :
    buildChunks documentId pages chunkSize overlap = [] := by
  have hfold : ∀ ps : List TextPage, (∀ p ∈ ps, splitWords p.text = []) →
      ps.foldl (pushPage documentId chunkSize overlap) initChunkState
        = initChunkState := by
    intro ps hps
    induction ps with
    | nil => rfl
    | cons p rest ih =>
      rw [List.foldl_cons]
      have hp : pushPage documentId chunkSize overlap initChunkState p
          = initChunkState := by
        unfold pushPage
        rw [if_pos (hps p (by simp))]
      rw [hp]
      exact ih (fun q hq => hps q (by simp [hq]))
  rw [buildChunks, hfold pages h]
  rfl

/-- C1 (amended): immediately after a push that emits a chunk, the buffer
drops its first `chunkSize - overlap` words (truncated at zero).  When
`overlap < chunkSize` this trims the buffer (which holds exactly
`chunkSize` words at every emission reached from the initial state) to
exactly its last `overlap` words; when `chunkSize ≤ overlap` the buffer is
left whole — all its words are retained, it is NOT emptied. -/
theorem chunker_trim_after_emit (documentId : String)
    (chunkSize overlap page : Nat) (word : String) (s : ChunkState)
    (hemit : chunkSize ≤ s.carryWords.length + 1) :
    (pushWord documentId chunkSize overlap s page word).chunkIndex
      = s.chunkIndex + 1 ∧
    (overlap < chunkSize → s.carryWords.length + 1 = chunkSize →
      ((pushWord documentId chunkSize overlap s page word).carryWords.length
          = overlap ∧
        (pushWord documentId chunkSize overlap s page word).carryWords
          = (s.carryWords ++ [word]).drop
              ((s.carryWords ++ [word]).length - overlap))) ∧
    (chunkSize ≤ overlap →
      (pushWord documentId chunkSize overlap s page word).carryWords
        = s.carryWords ++ [word]) := by
  have hc : chunkSize ≤ (s.carryWords ++ [word]).length := by
    simp only [List.length_append, List.length_cons, List.length_nil]
    omega
  have hpush : pushWord documentId chunkSize overlap s page word =
      { chunks := s.chunks ++
          [{ chunkId := mkChunkId documentId s.chunkIndex
             chunkIndex := s.chunkIndex
             pageStart := s.carryStartPage.getD page
             pageEnd := page
             words := s.carryWords ++ [word] }]
        chunkIndex := s.chunkIndex + 1
        carryWords := (s.carryWords ++ [word]).drop (chunkSize - overlap)
        carryStartPage := some page
        carryEndPage := some page } := by
    simp [pushWord, hemit]
  rw [hpush]
  refine ⟨rfl, ?_, ?_⟩
  · intro hov hfill
    constructor
    · show ((s.carryWords ++ [word]).drop (chunkSize - overlap)).length = overlap
      simp only [List.length_drop, List.length_append, List.length_cons,
        List.length_nil]
      omega
    · show (s.carryWords ++ [word]).drop (chunkSize - overlap)
        = (s.carryWords ++ [word]).drop ((s.carryWords ++ [word]).length - overlap)
      have : (s.carryWords ++ [word]).length = chunkSize := by
        simp only [List.length_append, List.length_cons, List.length_nil]
        omega
      rw [this]
  · intro hle
    show (s.carryWords ++ [word]).drop (chunkSize - overlap) = s.carryWords ++ [word]
    have : chunkSize - overlap = 0 := by omega
    rw [this, List.drop_zero]

/-- Witness for `chunker_trim_after_emit`: with `chunkSize = 2`,
`overlap = 1` and buffer `["a"]`, pushing "b" emits a chunk and trims the
buffer to its last word. -/
theorem chunker_trim_after_emit_witness :
    (2 ≤ (["a"] : List String).length + 1) ∧
    ((pushWord "d" 2 1 ⟨[], 0, ["a"], some 1, some 1⟩ 1 "b").chunkIndex = 0 + 1 ∧
      (1 < 2 → (["a"] : List String).length + 1 = 2 →
        ((pushWord "d" 2 1 ⟨[], 0, ["a"], some 1, some 1⟩ 1 "b").carryWords.length = 1 ∧
          (pushWord "d" 2 1 ⟨[], 0, ["a"], some 1, some 1⟩ 1 "b").carryWords
            = ((["a"] : List String) ++ ["b"]).drop
                (((["a"] : List String) ++ ["b"]).length - 1))) ∧
      (2 ≤ 1 → (pushWord "d" 2 1 ⟨[], 0, ["a"], some 1, some 1⟩ 1 "b").carryWords
          = (["a"] : List String) ++ ["b"])) :=
  ⟨by decide, chunker_trim_after_emit "d" 2 1 1 "b" ⟨[], 0, ["a"], some 1, some 1⟩ (by decide)⟩

/-- C1 counterexample: with `chunkSize = 2 ≤ overlap = 2`, the second word
push inside `buildChunks "d" [(1, "a b c")] 2 2` emits a chunk (the index
steps to 1) yet leaves the running buffer holding both words instead of
emptying it, and the over-full buffer then reappears verbatim in the later
chunks of the run. -/
theorem chunker_trim_cex :
    (pushWord "d" 2 2 (pushWord "d" 2 2 initChunkState 1 "a") 1 "b").chunkIndex
        = 1 ∧
    (pushWord "d" 2 2 (pushWord "d" 2 2 initChunkState 1 "a") 1 "b").carryWords
        = ["a", "b"] ∧
    (pushWord "d" 2 2 (pushWord "d" 2 2 initChunkState 1 "a") 1 "b").carryWords
        ≠ [] ∧
    (splitWords "a b c").take 2 = ["a", "b"] ∧
    (buildChunks "d" [⟨1, "a b c"⟩] 2 2).map TextChunk.words
        = [["a", "b"], ["a", "b", "c"], ["a", "b", "c"]] := by decide

/-- C6: with the source defaults `chunkSize = 260`, `overlap = 80`, every
chunk holds at most 260 words, each later chunk's first 80 words repeat the
previous chunk's last 80 words, and the first chunk followed by every later
chunk minus its first 80 words rebuilds the document's word sequence. -/
theorem chunk_reconstruction_260_80 (documentId : String) (pages : List TextPage) :
    (∀ c ∈ buildChunks documentId pages 260 80, c.words.length ≤ 260) ∧
    reconstruct 80 (buildChunks documentId pages 260 80) = allWords pages ∧
    List.Chain' (OverlapLink 80) (buildChunks documentId pages 260 80) :=
  buildChunks_spec documentId pages 260 80 (by omega)

/-- Witness for `chunk_reconstruction_260_80` on a concrete two-word page. -/
theorem chunk_reconstruction_260_80_witness :
    (⟨"w:chunk:0", 0, 1, 1, ["alpha", "beta"]⟩ : TextChunk).words.length ≤ 260 ∧
    reconstruct 80 (buildChunks "w" [⟨1, "alpha beta"⟩] 260 80)
      = allWords [⟨1, "alpha beta"⟩] :=
  ⟨(chunk_reconstruction_260_80 "w" [⟨1, "alpha beta"⟩]).1 _ (by decide),
   (chunk_reconstruction_260_80 "w" [⟨1, "alpha beta"⟩]).2.1⟩

/-! ### Chunker page-span invariants -/

/-- Pages listed in ascending order of page number, all at least `lo`. -/
def PagesAsc : Nat → List TextPage → Prop
  | _, [] => True
  | lo, p :: rest => lo ≤ p.page ∧ PagesAsc p.page rest

theorem pagesAsc_of_chain (pages : List TextPage) (lo : Nat)
    (h : List.Chain (· ≤ ·) lo (pages.map TextPage.page)) : PagesAsc lo pages := by
  induction pages generalizing lo with
  | nil => trivial
  | cons p rest ih =>
    cases h with
    | cons hle hrest => exact ⟨hle, ih p.page hrest⟩

theorem pagesAsc_of_chain' (pages : List TextPage)
    (h : List.Chain' (· ≤ ·) (pages.map TextPage.page)) : PagesAsc 0 pages := by
  apply pagesAsc_of_chain
  cases pages with
  | nil => exact List.Chain.nil
  | cons p rest => exact List.Chain.cons (Nat.zero_le _) h

/-- Loop invariant of `buildChunks` for page spans: `lo` is an upper bound
on the pages consumed so far (and a lower bound for the pages to come). -/
structure SpanInv (pageCount lo : Nat) (s : ChunkState) : Prop where
  spans : ∀ c ∈ s.chunks,
    1 ≤ c.pageStart ∧ c.pageStart ≤ c.pageEnd ∧ c.pageEnd ≤ pageCount
  mono : List.Chain' (fun a b => a.pageStart ≤ b.pageStart ∧ a.pageEnd ≤ b.pageEnd)
    s.chunks
  idx : s.chunks.map TextChunk.chunkIndex = List.range s.chunkIndex
  pagesOk : (s.carryStartPage = none ∧ s.carryEndPage = none ∧ s.chunks = []) ∨
    (∃ a b, s.carryStartPage = some a ∧ s.carryEndPage = some b ∧
      1 ≤ a ∧ a ≤ b ∧ b ≤ lo ∧ b ≤ pageCount ∧
      (∀ c, s.chunks.getLast? = some c → c.pageStart ≤ a ∧ c.pageEnd ≤ b))

theorem spanInv_init (pageCount : Nat) : SpanInv pageCount 0 initChunkState := by
  refine ⟨?_, ?_, ?_, Or.inl ⟨rfl, rfl, rfl⟩⟩ <;> simp [initChunkState]

theorem spanInv_mono (pageCount lo lo1 : Nat) (s : ChunkState)
    (hinv : SpanInv pageCount lo s) (h : lo ≤ lo1) : SpanInv pageCount lo1 s := by
  refine ⟨hinv.spans, hinv.mono, hinv.idx, ?_⟩
  rcases hinv.pagesOk with hnone | ⟨a, b, ha, hb, h1, h2, h3, h4, h5⟩
  · exact Or.inl hnone
  · exact Or.inr ⟨a, b, ha, hb, h1, h2, le_trans h3 h, h4, h5⟩

theorem spanInv_push (documentId : String) (chunkSize overlap : Nat)
    (pageCount lo page : Nat) (word : String) (s : ChunkState)
    (h1 : 1 ≤ page) (h2 : page ≤ pageCount) (hlo : lo ≤ page)
    (hinv : SpanInv pageCount lo s) :
    SpanInv pageCount page (pushWord documentId chunkSize overlap s page word) := by
  have hstart_le : 1 ≤ s.carryStartPage.getD page ∧ s.carryStartPage.getD page ≤ page ∧
      (∀ c, s.chunks.getLast? = some c →
        c.pageStart ≤ s.carryStartPage.getD page ∧ c.pageEnd ≤ page) := by
    rcases hinv.pagesOk with ⟨hn, _, hch⟩ | ⟨a, b, ha, hb, q1, q2, q3, q4, q5⟩
    · refine ⟨by simp [hn, h1], by simp [hn], ?_⟩
      intro c hc
      rw [hch] at hc
      simp at hc
    · refine ⟨by simp [ha, q1], by simp [ha]; omega, ?_⟩
      intro c hc
      have := q5 c hc
      simp only [ha, Option.getD_some]
      omega
  by_cases hc : chunkSize ≤ (s.carryWords ++ [word]).length
  · have hc1 : chunkSize ≤ s.carryWords.length + 1 := by
      simp only [List.length_append, List.length_cons, List.length_nil] at hc
      omega
    have hpush : pushWord documentId chunkSize overlap s page word =
        { chunks := s.chunks ++
            [{ chunkId := mkChunkId documentId s.chunkIndex
               chunkIndex := s.chunkIndex
               pageStart := s.carryStartPage.getD page
               pageEnd := page
               words := s.carryWords ++ [word] }]
          chunkIndex := s.chunkIndex + 1
          carryWords := (s.carryWords ++ [word]).drop (chunkSize - overlap)
          carryStartPage := some page
          carryEndPage := some page } := by
      simp [pushWord, hc1]
    rw [hpush]
    refine ⟨?_, ?_, ?_, ?_⟩
    · intro c hcm
      rcases List.mem_append.mp hcm with hcm | hcm
      · exact hinv.spans c hcm
      · simp only [List.mem_singleton] at hcm
        subst hcm
        exact ⟨hstart_le.1, hstart_le.2.1, h2⟩
    · rw [List.chain'_append]
      refine ⟨hinv.mono, List.chain'_singleton _, ?_⟩
      intro x hx y hy
      simp only [List.head?_cons, Option.mem_def, Option.some.injEq] at hy
      subst hy
      have := hstart_le.2.2 x hx
      exact ⟨this.1, this.2⟩
    · simp only [List.map_append, List.map_cons, List.map_nil, hinv.idx,
        List.range_succ]
    · refine Or.inr ⟨page, page, rfl, rfl, h1, le_refl page, le_refl page, h2, ?_⟩
      intro c hcl
      rw [List.getLast?_concat] at hcl
      injection hcl with hcl
      rw [← hcl]
      exact ⟨hstart_le.2.1, le_refl page⟩
  · have hc1 : ¬ chunkSize ≤ s.carryWords.length + 1 := by
      simp only [List.length_append, List.length_cons, List.length_nil] at hc
      omega
    have hpush : pushWord documentId chunkSize overlap s page word =
        { chunks := s.chunks
          chunkIndex := s.chunkIndex
          carryWords := s.carryWords ++ [word]
          carryStartPage := some (s.carryStartPage.getD page)
          carryEndPage := some page } := by
      simp [pushWord, hc1]
    rw [hpush]
    refine ⟨hinv.spans, hinv.mono, hinv.idx, ?_⟩
    refine Or.inr ⟨s.carryStartPage.getD page, page, rfl, rfl,
      hstart_le.1, hstart_le.2.1, le_refl page, h2, ?_⟩
    intro c hcl
    exact hstart_le.2.2 c hcl

theorem spanInv_foldWords (documentId : String) (chunkSize overlap : Nat)
    (pageCount page : Nat) (words : List String) (lo : Nat) (s : ChunkState)
    (h1 : 1 ≤ page) (h2 : page ≤ pageCount) (hlo : lo ≤ page)
    (hinv : SpanInv pageCount lo s) :
    SpanInv pageCount page
      (words.foldl (fun s1 w => pushWord documentId chunkSize overlap s1 page w) s) := by
  induction words generalizing lo s with
  | nil => exact spanInv_mono pageCount lo page s hinv hlo
  | cons w rest ih =>
    rw [List.foldl_cons]
    exact ih page _ (le_refl page)
      (spanInv_push documentId chunkSize overlap pageCount lo page w s h1 h2 hlo hinv)

theorem spanInv_pages (documentId : String) (chunkSize overlap pageCount : Nat)
    (pages : List TextPage) (lo : Nat) (s : ChunkState)
    (hb : ∀ p ∈ pages, 1 ≤ p.page ∧ p.page ≤ pageCount)
    (hasc : PagesAsc lo pages)
    (hinv : SpanInv pageCount lo s) :
    ∃ lo1, SpanInv pageCount lo1
      (pages.foldl (pushPage documentId chunkSize overlap) s) := by
  induction pages generalizing lo s with
  | nil => exact ⟨lo, hinv⟩
  | cons p rest ih =>
    rw [List.foldl_cons]
    have hp := hb p (by simp)
    have hstep : SpanInv pageCount p.page (pushPage documentId chunkSize overlap s p) := by
      unfold pushPage
      by_cases hw : splitWords p.text = []
      · rw [if_pos hw]
        exact spanInv_mono pageCount lo p.page s hinv hasc.1
      · rw [if_neg hw]
        exact spanInv_foldWords documentId chunkSize overlap pageCount p.page
          (splitWords p.text) lo s hp.1 hp.2 hasc.1 hinv
    exact ih p.page _ (fun q hq => hb q (List.mem_cons_of_mem p hq)) hasc.2 hstep

theorem spanInv_flush (documentId : String) (pageCount lo : Nat) (s : ChunkState)
    (hinv : SpanInv pageCount lo s) :
    (∀ c ∈ flushChunks documentId s,
        1 ≤ c.pageStart ∧ c.pageStart ≤ c.pageEnd ∧ c.pageEnd ≤ pageCount) ∧
    List.Chain' (fun a b => a.pageStart ≤ b.pageStart ∧ a.pageEnd ≤ b.pageEnd)
      (flushChunks documentId s) ∧
    (flushChunks documentId s).map TextChunk.chunkIndex
      = List.range (flushChunks documentId s).length := by
  have hlen : s.chunks.length = s.chunkIndex := by
    have := congrArg List.length hinv.idx
    simpa using this
  rcases hinv.pagesOk with ⟨hn, _, _⟩ | ⟨a, b, ha, hb1, q1, q2, q3, q4, q5⟩
  · rw [show flushChunks documentId s = s.chunks by rw [flushChunks, hn]]
    exact ⟨hinv.spans, hinv.mono, by rw [hinv.idx, hlen]⟩
  · by_cases hpos : 0 < s.carryWords.length
    · rw [show flushChunks documentId s = s.chunks ++
          [{ chunkId := mkChunkId documentId s.chunkIndex
             chunkIndex := s.chunkIndex
             pageStart := a
             pageEnd := s.carryEndPage.getD a
             words := s.carryWords }] by rw [flushChunks, ha]; exact if_pos hpos]
      have hend : s.carryEndPage.getD a = b := by rw [hb1]; rfl
      refine ⟨?_, ?_, ?_⟩
      · intro c hcm
        rcases List.mem_append.mp hcm with hcm | hcm
        · exact hinv.spans c hcm
        · simp only [List.mem_singleton] at hcm
          subst hcm
          exact ⟨q1, by simp [hend]; omega, by simp [hend]; omega⟩
      · rw [List.chain'_append]
        refine ⟨hinv.mono, List.chain'_singleton _, ?_⟩
        intro x hx y hy
        simp only [List.head?_cons, Option.mem_def, Option.some.injEq] at hy
        subst hy
        have := q5 x hx
        simp only [hend]
        omega
      · rw [List.map_append, hinv.idx, List.length_append, hlen]
        simp [List.range_succ]
    · rw [show flushChunks documentId s = s.chunks by
        rw [flushChunks, ha]; exact if_neg hpos]
      exact ⟨hinv.spans, hinv.mono, by rw [hinv.idx, hlen]⟩

/-- C7: for pages listed in ascending page order with page numbers in
`[1, pageCount]`, every chunk's span satisfies
`1 ≤ pageStart ≤ pageEnd ≤ pageCount`, the spans are non-decreasing along
the chunk list, and the chunk indices are exactly `0, 1, 2, …` in list
order (so the spans are non-decreasing as the chunk index increases). -/
theorem chunk_page_spans (documentId : String) (pages : List TextPage)
    (pageCount chunkSize overlap : Nat)
    (hb : ∀ p ∈ pages, 1 ≤ p.page ∧ p.page ≤ pageCount)
    (hsorted : List.Chain' (· ≤ ·) (pages.map TextPage.page)) :
    (∀ c ∈ buildChunks documentId pages chunkSize overlap,
        1 ≤ c.pageStart ∧ c.pageStart ≤ c.pageEnd ∧ c.pageEnd ≤ pageCount) ∧
    List.Chain' (fun a b => a.pageStart ≤ b.pageStart ∧ a.pageEnd ≤ b.pageEnd)
      (buildChunks documentId pages chunkSize overlap) ∧
    (buildChunks documentId pages chunkSize overlap).map TextChunk.chunkIndex
      = List.range (buildChunks documentId pages chunkSize overlap).length := by
  obtain ⟨lo1, hinv⟩ := spanInv_pages documentId chunkSize overlap pageCount pages 0
    initChunkState hb (pagesAsc_of_chain' pages hsorted) (spanInv_init pageCount)
  exact spanInv_flush documentId pageCount lo1 _ hinv

/-- Witness for `chunk_page_spans` on two concrete pages. -/
theorem chunk_page_spans_witness :
    ((∀ p ∈ [(⟨1, "a b c"⟩ : TextPage), ⟨2, "d"⟩], 1 ≤ p.page ∧ p.page ≤ 2) ∧
      List.Chain' (· ≤ ·) ([(⟨1, "a b c"⟩ : TextPage), ⟨2, "d"⟩].map TextPage.page)) ∧
    ((∀ c ∈ buildChunks "w" [⟨1, "a b c"⟩, ⟨2, "d"⟩] 3 1,
        1 ≤ c.pageStart ∧ c.pageStart ≤ c.pageEnd ∧ c.pageEnd ≤ 2) ∧
      List.Chain' (fun a b => a.pageStart ≤ b.pageStart ∧ a.pageEnd ≤ b.pageEnd)
        (buildChunks "w" [⟨1, "a b c"⟩, ⟨2, "d"⟩] 3 1) ∧
      (buildChunks "w" [⟨1, "a b c"⟩, ⟨2, "d"⟩] 3 1).map TextChunk.chunkIndex
        = List.range (buildChunks "w" [⟨1, "a b c"⟩, ⟨2, "d"⟩] 3 1).length) :=
  ⟨⟨by decide, by simp [List.chain'_cons]⟩,
   chunk_page_spans "w" [⟨1, "a b c"⟩, ⟨2, "d"⟩] 2 3 1 (by decide)
     (by simp [List.chain'_cons])⟩

/-! ### Ingestion orchestrator (`ingestDocument`, `src/lib/server/documents.ts`) -/

/-- One unit of work performed by `ingestDocument`, in program order. -/
inductive IngestEffect where
  | insertDocuments (documentId : String)
  | insertDocumentText (documentId : String)
  | insertDocumentPages (documentId : String)
  | insertChunks (documentId : String)
  | createEmbedding (text : String)
  | upsertEmbeddings (ids : List String)
  | insertChunkEmbeddings (chunkIds : List String)
deriving DecidableEq

/-- Embedding work in the sense of the spec: Ollama embedding calls, the
Chroma vector upsert, and the `chunk_embeddings` bookkeeping rows. -/
def IngestEffect.isEmbeddingWork : IngestEffect → Bool
  | .createEmbedding _ => true
  | .upsertEmbeddings _ => true
  | .insertChunkEmbeddings _ => true
  | _ => false

/-- The input record of `ingestDocument`. -/
structure IngestInput where
  documentId : String
  title : String
  sourceName : String
  pages : List TextPage
  descriptionMd : String
  filePath : String
  mimeType : String
  byteSize : Nat
  wordCount : Nat
  fullText : String

/-- The return value `{ chunkCount }` of `ingestDocument`. -/
structure IngestResult where
  chunkCount : Nat
deriving DecidableEq

/-- `ingestDocument` from `src/lib/server/documents.ts`: build the chunks,
persist the document / full-text / page rows, and — only when at least one
chunk exists — persist chunk rows, embed every chunk (`createEmbedding`,
which may fail), upsert the vectors into Chroma (`upsert`, which may fail),
and persist the embedding bookkeeping rows.  Database inserts are recorded
in the effect trace; a failing external call aborts with its error. -/
def ingestDocument (embed : String → Except String (List Rat))
    (upsert : List String → List (List Rat) → Except String Unit)
    (input : IngestInput) : Except String (IngestResult × List IngestEffect) :=
  let textChunks := buildChunks input.documentId input.pages 260 80
  let tr0 : List IngestEffect :=
    [.insertDocuments input.documentId, .insertDocumentText input.documentId,
     .insertDocumentPages input.documentId]
  if textChunks = [] then Except.ok (⟨0⟩, tr0)
  else
    let tr1 := tr0 ++ [.insertChunks input.documentId]
    match textChunks.mapM (fun c => embed (chunkText c)) with
    | Except.error e => Except.error e
    | Except.ok embeddings =>
      let tr2 := tr1 ++ textChunks.map (fun c => IngestEffect.createEmbedding (chunkText c))
      match upsert (textChunks.map TextChunk.chunkId) embeddings with
      | Except.error e => Except.error e
      | Except.ok _ =>
        Except.ok (⟨textChunks.length⟩,
          tr2 ++ [.upsertEmbeddings (textChunks.map TextChunk.chunkId),
                  .insertChunkEmbeddings (textChunks.map TextChunk.chunkId)])

/-- C8: a document whose pages all tokenize to zero words produces zero
chunks, and ingesting it succeeds with `{chunkCount := 0}` after only the
document / full-text / page inserts — no embedding, vector-upsert, or
embedding-bookkeeping effect is performed, for any behaviour of the
external embedding and vector services. -/
theorem ingest_empty_document (embed : String → Except String (List Rat))
    (upsert : List String → List (List Rat) → Except String Unit)
    (input : IngestInput)
    (h : ∀ p ∈ input.pages, splitWords p.text = []) :
    buildChunks input.documentId input.pages 260 80 = [] ∧
    ingestDocument embed upsert input = Except.ok (⟨0⟩,
      [.insertDocuments input.documentId, .insertDocumentText input.documentId,
       .insertDocumentPages input.documentId]) ∧
    ∀ e ∈ [IngestEffect.insertDocuments input.documentId,
           .insertDocumentText input.documentId,
           .insertDocumentPages input.documentId],
      e.isEmbeddingWork = false := by
  have hz := buildChunks_empty_pages input.documentId input.pages 260 80 h
  refine ⟨hz, ?_, ?_⟩
  · unfold ingestDocument
    rw [hz]
    rfl
  · intro e he
    simp only [List.mem_cons, List.not_mem_nil, or_false] at he
    rcases he with h1 | h1 | h1 <;> subst h1 <;> rfl

/-- Witness for `ingest_empty_document`: a one-page whitespace-only document
ingested against external services that always fail — ingestion still
succeeds with zero chunks and performs no embedding work. -/
theorem ingest_empty_document_witness :
    (∀ p ∈ [(⟨1, "   "⟩ : TextPage)], splitWords p.text = []) ∧
    ingestDocument (fun _ => Except.error "ollama down")
        (fun _ _ => Except.error "chroma down")
        ⟨"doc1", "t", "s.pdf", [⟨1, "   "⟩], "", "/f", "application/pdf", 3, 0, "   "⟩
      = Except.ok (⟨0⟩,
        [.insertDocuments "doc1", .insertDocumentText "doc1",
         .insertDocumentPages "doc1"]) :=
  ⟨by decide,
   (ingest_empty_document (fun _ => Except.error "ollama down")
      (fun _ _ => Except.error "chroma down")
      ⟨"doc1", "t", "s.pdf", [⟨1, "   "⟩], "", "/f", "application/pdf", 3, 0, "   "⟩
      (by decide)).2.1⟩

/-! ### JavaScript `Map` as an association list -/

/-- `map.set(k, v)`: update in place if the key exists, append otherwise
(JavaScript `Map` iteration is in insertion order, and `set` on an existing
key keeps its position). -/
def setEntry {α : Type} : List (String × α) → String → α → List (String × α)
  | [], k, v => [(k, v)]
  | (k1, v1) :: rest, k, v =>
    if k1 = k then (k1, v) :: rest else (k1, v1) :: setEntry rest k v

/-- `map.get(k)` (`none` for `undefined`). -/
def lookupEntry {α : Type} : List (String × α) → String → Option α
  | [], _ => none
  | (k1, v1) :: rest, k => if k1 = k then some v1 else lookupEntry rest k

theorem lookupEntry_setEntry_self {α : Type} (m : List (String × α)) (k : String)
    (v : α) : lookupEntry (setEntry m k v) k = some v := by
  induction m with
  | nil => simp [setEntry, lookupEntry]
  | cons kv rest ih =>
    obtain ⟨k1, v1⟩ := kv
    by_cases h : k1 = k
    · simp [setEntry, lookupEntry, h]
    · simp [setEntry, lookupEntry, h, ih]

theorem lookupEntry_setEntry_ne {α : Type} (m : List (String × α)) (k k1 : String)
    (v : α) (h : k1 ≠ k) : lookupEntry (setEntry m k1 v) k = lookupEntry m k := by
  induction m with
  | nil => simp [setEntry, lookupEntry, h]
  | cons kv rest ih =>
    obtain ⟨k2, v2⟩ := kv
    by_cases h2 : k2 = k1
    · subst h2
      simp [setEntry, lookupEntry, h]
    · simp only [setEntry, if_neg h2]
      by_cases h3 : k2 = k

      · simp [lookupEntry, h3]
      · simp [lookupEntry, h3, ih]

theorem mem_setEntry {α : Type} (m : List (String × α)) (k : String) (v : α)
    (kv : String × α) (h : kv ∈ setEntry m k v) : kv = (k, v) ∨ kv ∈ m := by
  induction m with
  | nil => simpa [setEntry] using h
  | cons kv1 rest ih =>
    obtain ⟨k1, v1⟩ := kv1
    by_cases h1 : k1 = k
    · subst h1
      simp only [setEntry, if_pos rfl] at h
      rcases List.mem_cons.mp h with h2 | h2
      · exact Or.inl h2
      · exact Or.inr (List.mem_cons_of_mem _ h2)
    · simp only [setEntry, if_neg h1] at h
      rcases List.mem_cons.mp h with h2 | h2
      · exact Or.inr (by simp [h2])
      · rcases ih h2 with h3 | h3
        · exact Or.inl h3
        · exact Or.inr (List.mem_cons_of_mem _ h3)

theorem keys_setEntry_sub {α : Type} (m : List (String × α)) (k : String) (v : α)
    (j : String) (h : j ∈ (setEntry m k v).map Prod.fst) :
    j ∈ m.map Prod.fst ∨ j = k := by
  simp only [List.mem_map] at h
  obtain ⟨kv, hkv, hj⟩ := h
  rcases mem_setEntry m k v kv hkv with h1 | h1
  · right
    rw [← hj, h1]
  · left
    exact List.mem_map.mpr ⟨kv, h1, hj⟩

theorem nodupKeys_setEntry {α : Type} (m : List (String × α)) (k : String) (v : α)
    (h : (m.map Prod.fst).Nodup) : ((setEntry m k v).map Prod.fst).Nodup := by
  induction m with
  | nil => simp [setEntry]
  | cons kv rest ih =>
    obtain ⟨k1, v1⟩ := kv
    simp only [List.map_cons, List.nodup_cons] at h
    by_cases h1 : k1 = k
    · simp only [setEntry, if_pos h1, List.map_cons, List.nodup_cons]
      exact h
    · simp only [setEntry, if_neg h1, List.map_cons, List.nodup_cons]
      refine ⟨?_, ih h.2⟩
      intro habs
      rcases keys_setEntry_sub rest k v k1 habs with h2 | h2
      · exact h.1 h2
      · exact h1 h2

/-- A member of an association list with duplicate-free keys is what lookup
returns at its key. -/
theorem lookupEntry_of_mem {α : Type} (m : List (String × α))
    (hnd : (m.map Prod.fst).Nodup) (kv : String × α) (h : kv ∈ m) :
    lookupEntry m kv.1 = some kv.2 := by
  induction m with
  | nil => simp at h
  | cons kv1 rest ih =>
    obtain ⟨k1, v1⟩ := kv1
    simp only [List.map_cons, List.nodup_cons] at hnd
    rcases List.mem_cons.mp h with h1 | h1
    · subst h1
      simp [lookupEntry]
    · have hk : k1 ≠ kv.1 := by
        intro habs
        exact hnd.1 (habs ▸ List.mem_map.mpr ⟨kv, h1, rfl⟩)
      simp only [lookupEntry, if_neg hk]
      exact ih hnd.2 h1

theorem lookupEntry_mem {α : Type} (m : List (String × α)) (k : String) (v : α)
    (h : lookupEntry m k = some v) : (k, v) ∈ m := by
  induction m with
  | nil => simp [lookupEntry] at h
  | cons kv rest ih =>
    obtain ⟨k1, v1⟩ := kv
    by_cases h1 : k1 = k
    · subst h1
      simp [lookupEntry] at h
      rw [← h]
      simp
    · simp only [lookupEntry, if_neg h1] at h
      exact List.mem_cons_of_mem _ (ih h)

/-! ### Tag filter (`filterDocumentsByTagNames`, `src/lib/server/documents.ts`) -/

/-- Characterwise trim (both ends) of a character list. -/
def trimChars (l : List Char) : List Char :=
  ((l.dropWhile Char.isWhitespace).reverse.dropWhile Char.isWhitespace).reverse

/-- JavaScript `s.trim()`. -/
def trimStr (s : String) : String :=
  String.mk (trimChars s.toList)

/-- JavaScript `s.toLowerCase()` (characterwise). -/
def toLowerStr (s : String) : String :=
  String.mk (s.toList.map Char.toLower)

/-- `normalizeTagName` from `documents.ts`: `input.trim().toLowerCase()`. -/
def normalizeTagName (input : String) : String :=
  toLowerStr (trimStr input)

/-- `[...new Set(l)]`: de-duplication keeping the first occurrence
(`seen` accumulates the keys already produced). -/
def dedupFirstAux (seen : List String) : List String → List String
  | [] => []
  | x :: xs =>
    if x ∈ seen then dedupFirstAux seen xs
    else x :: dedupFirstAux (x :: seen) xs

/-- `[...new Set(l)]`. -/
def dedupFirst (l : List String) : List String :=
  dedupFirstAux [] l

theorem mem_dedupFirstAux (l : List String) (seen : List String) (x : String) :
    x ∈ dedupFirstAux seen l ↔ x ∈ l ∧ x ∉ seen := by
  induction l generalizing seen with
  | nil => simp [dedupFirstAux]
  | cons y ys ih =>
    by_cases hy : y ∈ seen
    · simp only [dedupFirstAux, if_pos hy, ih, List.mem_cons]
      constructor
      · rintro ⟨h1, h2⟩
        exact ⟨Or.inr h1, h2⟩
      · rintro ⟨h1 | h1, h2⟩
        · exact absurd (h1 ▸ hy) h2
        · exact ⟨h1, h2⟩
    · simp only [dedupFirstAux, if_neg hy, List.mem_cons, ih]
      constructor
      · rintro (h1 | ⟨h1, h2⟩)
        · exact ⟨Or.inl h1, fun habs => hy (h1 ▸ habs)⟩
        · exact ⟨Or.inr h1, fun habs => h2 (Or.inr habs)⟩
      · rintro ⟨h1 | h1, h2⟩
        · exact Or.inl h1
        · by_cases hxy : x = y
          · exact Or.inl hxy
          · exact Or.inr ⟨h1, fun habs => habs.elim hxy h2⟩

theorem mem_dedupFirst (l : List String) (x : String) :
    x ∈ dedupFirst l ↔ x ∈ l := by
  simp [dedupFirst, mem_dedupFirstAux]

theorem nodup_dedupFirstAux (l : List String) (seen : List String) :
    (dedupFirstAux seen l).Nodup := by
  induction l generalizing seen with
  | nil => simp [dedupFirstAux]
  | cons y ys ih =>
    by_cases hy : y ∈ seen
    · simpa [dedupFirstAux, if_pos hy] using ih seen
    · simp only [dedupFirstAux, if_neg hy, List.nodup_cons]
      refine ⟨?_, ih (y :: seen)⟩
      intro habs
      exact ((mem_dedupFirstAux ys (y :: seen) y).mp habs).2 (by simp)

theorem nodup_dedupFirst (l : List String) : (dedupFirst l).Nodup :=
  nodup_dedupFirstAux l []

theorem dedupFirst_eq_nil (l : List String) : dedupFirst l = [] ↔ l = [] := by
  cases l with
  | nil => simp [dedupFirst, dedupFirstAux]
  | cons y ys => simp [dedupFirst, dedupFirstAux]

/-- A stored tag row (`tags` table: primary-key `id`, unique `name`). -/
structure TagRow where
  id : String
  name : String
deriving DecidableEq

/-- `counts.set(documentId, (counts.get(documentId) ?? 0) + 1)`. -/
def bumpCount (m : List (String × Nat)) (k : String) : List (String × Nat) :=
  setEntry m k ((lookupEntry m k).getD 0 + 1)

/-- `[...new Set(tagNames.map(normalizeTagName).filter(Boolean))]` — the
normalized, de-duplicated request list of `filterDocumentsByTagNames`. -/
def normalizedTagList (tagNames : List String) : List String :=
  dedupFirst ((tagNames.map normalizeTagName).filter (fun s => s ≠ ""))

/-- `filterDocumentsByTagNames` from `documents.ts`.  The database is
explicit: `storedTags` is the `tags` table, `documentTagRows` the
`document_tags` join table (as `(documentId, tagId)` pairs).  The two
`select`s are embedded as filters over those tables. -/
def filterDocumentsByTagNames (storedTags : List TagRow)
    (documentTagRows : List (String × String)) (tagNames : List String) :
    Option (List String) :=
  let normalized := normalizedTagList tagNames
  if normalized = [] then none
  else
    let tagRows := storedTags.filter (fun t => t.name ∈ normalized)
    if tagRows.length ≠ normalized.length then some []
    else
      let tagIds := tagRows.map TagRow.id
      let relationRows := documentTagRows.filter (fun r => r.2 ∈ tagIds)
      let counts := relationRows.foldl (fun m r => bumpCount m r.1) []
      some ((counts.filter (fun kv => tagIds.length ≤ kv.2)).map Prod.fst)

theorem foldl_bumpCount_getD (rows : List (String × String))
    (m0 : List (String × Nat)) (k : String) :
    (lookupEntry (rows.foldl (fun m r => bumpCount m r.1) m0) k).getD 0
      = (lookupEntry m0 k).getD 0 + rows.countP (fun r => r.1 = k) := by
  induction rows generalizing m0 with
  | nil => simp
  | cons r rest ih =>
    rw [List.foldl_cons, ih]
    by_cases hk : r.1 = k
    · subst hk
      rw [bumpCount, lookupEntry_setEntry_self]
      have hc : List.countP (fun r1 : String × String => decide (r1.1 = r.1)) (r :: rest)
          = List.countP (fun r1 : String × String => decide (r1.1 = r.1)) rest + 1 := by
        simp [List.countP_cons]
      rw [hc, Option.getD_some]
      omega
    · rw [bumpCount, lookupEntry_setEntry_ne _ _ _ _ hk]
      simp [List.countP_cons, hk]

theorem foldl_bumpCount_nodupKeys (rows : List (String × String))
    (m0 : List (String × Nat)) (h : (m0.map Prod.fst).Nodup) :
    (((rows.foldl (fun m r => bumpCount m r.1) m0)).map Prod.fst).Nodup := by
  induction rows generalizing m0 with
  | nil => exact h
  | cons r rest ih =>
    rw [List.foldl_cons]
    exact ih _ (nodupKeys_setEntry m0 r.1 _ h)

/-- Pairs with a common first component and no duplicates have duplicate-free
second components. -/
theorem nodup_snd_of_fst_eq (F : List (String × String)) (d : String)
    (hF : F.Nodup) (hall : ∀ r ∈ F, r.1 = d) : (F.map Prod.snd).Nodup := by
  induction F with
  | nil => simp
  | cons r rest ih =>
    simp only [List.nodup_cons] at hF
    simp only [List.map_cons, List.nodup_cons]
    refine ⟨?_, ih hF.2 (fun q hq => hall q (List.mem_cons_of_mem _ hq))⟩
    intro habs
    obtain ⟨q, hq, hqe⟩ := List.mem_map.mp habs
    have h1 : q.1 = d := hall q (List.mem_cons_of_mem _ hq)
    have h2 : r.1 = d := hall r (by simp)
    have : r = q := by
      obtain ⟨r1, r2⟩ := r
      obtain ⟨q1, q2⟩ := q
      simp only at h1 h2 hqe
      rw [h1, h2, hqe]
    exact hF.1 (this ▸ hq)

/-- C4: the tag filter returns `null` exactly when the normalized,
de-duplicated request list is empty; returns `[]` whenever some requested
name has no stored tag; and otherwise returns exactly the document IDs that
are related to every stored tag whose name was requested (AND semantics) —
never a document missing even one requested tag.  The hypotheses are the
schema constraints: `tags.id` is the primary key, `tags.name` is UNIQUE,
and `document_tags` rows are distinct. -/
theorem tag_filter_and_semantics (storedTags : List TagRow)
    (rels : List (String × String)) (tagNames : List String)
    (hids : (storedTags.map TagRow.id).Nodup)
    (hnames : (storedTags.map TagRow.name).Nodup)
    (hrel : rels.Nodup) :
    (normalizedTagList tagNames = [] →
      filterDocumentsByTagNames storedTags rels tagNames = none) ∧
    (normalizedTagList tagNames ≠ [] →
      (∃ n ∈ normalizedTagList tagNames, ∀ t ∈ storedTags, t.name ≠ n) →
      filterDocumentsByTagNames storedTags rels tagNames = some []) ∧
    (normalizedTagList tagNames ≠ [] →
      (∀ n ∈ normalizedTagList tagNames, ∃ t ∈ storedTags, t.name = n) →
      ∃ ids, filterDocumentsByTagNames storedTags rels tagNames = some ids ∧
        ∀ d, d ∈ ids ↔
          ∀ t ∈ storedTags, t.name ∈ normalizedTagList tagNames →
            (d, t.id) ∈ rels) := by
  set normalized := normalizedTagList tagNames with hnorm
  have hnormnd : normalized.Nodup := nodup_dedupFirst _
  set tagRows := storedTags.filter (fun t => t.name ∈ normalized) with htagRows
  have htr_sub : tagRows.Sublist storedTags := List.filter_sublist _
  have htr_names_nd : (tagRows.map TagRow.name).Nodup :=
    (htr_sub.map TagRow.name).nodup hnames
  have htr_names_sub : (tagRows.map TagRow.name) ⊆ normalized := by
    intro n hn
    obtain ⟨t, ht, hte⟩ := List.mem_map.mp hn
    have := List.mem_filter.mp ht
    rw [← hte]
    simpa using this.2
  have htr_le : tagRows.length ≤ normalized.length := by
    have := (List.subperm_of_subset htr_names_nd htr_names_sub).length_le
    simpa using this
  refine ⟨?_, ?_, ?_⟩
  · intro h
    simp only [filterDocumentsByTagNames]
    rw [← hnorm, if_pos h]
  · intro hne ⟨n, hn, hmiss⟩
    have hlt : tagRows.length ≠ normalized.length := by
      intro heq
      have hperm : List.Perm (tagRows.map TagRow.name) normalized :=
        List.Subperm.perm_of_length_le
          (List.subperm_of_subset htr_names_nd htr_names_sub)
          (by simpa using le_of_eq heq.symm)
      have : n ∈ tagRows.map TagRow.name := hperm.mem_iff.mpr hn
      obtain ⟨t, ht, hte⟩ := List.mem_map.mp this
      exact hmiss t (List.mem_filter.mp ht).1 hte
    simp only [filterDocumentsByTagNames]
    rw [← hnorm, if_neg hne, ← htagRows, if_pos hlt]
  · intro hne hall
    have heq : tagRows.length = normalized.length := by
      have hsub2 : normalized ⊆ tagRows.map TagRow.name := by
        intro n hn
        obtain ⟨t, ht, hte⟩ := hall n hn
        have : t ∈ tagRows := by
          rw [htagRows]
          exact List.mem_filter.mpr ⟨ht, by simp [hte, hn]⟩
        exact List.mem_map.mpr ⟨t, this, hte⟩
      have h2 := (List.subperm_of_subset hnormnd hsub2).length_le
      simp only [List.length_map] at h2
      omega
    set tagIds := tagRows.map TagRow.id with htagIds
    have hids_nd : tagIds.Nodup := (htr_sub.map TagRow.id).nodup hids
    set relationRows := rels.filter (fun r => r.2 ∈ tagIds) with hrelRows
    set counts := relationRows.foldl (fun m r => bumpCount m r.1) [] with hcounts
    have hcounts_nd : (counts.map Prod.fst).Nodup :=
      foldl_bumpCount_nodupKeys relationRows [] (by simp)
    refine ⟨(counts.filter (fun kv => tagIds.length ≤ kv.2)).map Prod.fst, ?_, ?_⟩
    · simp only [filterDocumentsByTagNames]
      rw [← hnorm, if_neg hne, ← htagRows, if_neg (by omega)]
    · intro d
      have hlen_pos : 0 < tagIds.length := by
        rw [htagIds, List.length_map, heq]
        exact List.length_pos.mpr hne
      -- the count stored for d is the number of filtered relation rows
      -- whose document is d
      have hcount_val : (lookupEntry counts d).getD 0
          = relationRows.countP (fun r => r.1 = d) := by
        rw [hcounts, foldl_bumpCount_getD]
        simp [lookupEntry]
      -- membership in the returned list is the threshold test on that count
      have hmem_iff : d ∈ (counts.filter (fun kv => tagIds.length ≤ kv.2)).map Prod.fst
          ↔ tagIds.length ≤ relationRows.countP (fun r => r.1 = d) := by
        constructor
        · intro hd
          obtain ⟨kv, hkv, hkve⟩ := List.mem_map.mp hd
          have h1 := List.mem_filter.mp hkv
          have h2 : lookupEntry counts kv.1 = some kv.2 :=
            lookupEntry_of_mem counts hcounts_nd kv h1.1
          have h3 : (lookupEntry counts d).getD 0 = kv.2 := by
            rw [hkve] at h2
            rw [h2]
            rfl
          rw [← hcount_val, h3]
          simpa using h1.2
        · intro hd
          rcases hlook : lookupEntry counts d with _ | n
          · rw [hlook] at hcount_val
            simp only [Option.getD_none] at hcount_val
            omega
          · have hn : n = relationRows.countP (fun r => r.1 = d) := by
              rw [hlook] at hcount_val
              simpa using hcount_val
            refine List.mem_map.mpr ⟨(d, n), ?_, rfl⟩
            refine List.mem_filter.mpr ⟨lookupEntry_mem counts d n hlook, ?_⟩
            simp only [decide_eq_true_eq]
            omega
      rw [hmem_iff]
      -- the filtered relation rows for d, as a single filter over the table
      have hcount_eq : relationRows.countP (fun r => r.1 = d)
          = (rels.filter (fun r => r.1 = d ∧ r.2 ∈ tagIds)).length := by
        rw [hrelRows, List.countP_filter, List.countP_eq_length_filter]
        congr 1
        apply List.filter_congr
        intro a _
        by_cases h1 : a.1 = d <;> by_cases h2 : a.2 ∈ tagIds <;> simp [h1, h2]
      rw [hcount_eq]
      set F := rels.filter (fun r => r.1 = d ∧ r.2 ∈ tagIds) with hF
      have hF_nd : F.Nodup := (List.filter_sublist _).nodup hrel
      have hF_fst : ∀ r ∈ F, r.1 = d := by
        intro r hr
        have := List.mem_filter.mp hr
        simpa using (decide_eq_true_eq.mp this.2).1
      have hF_snd_mem : ∀ r ∈ F, r.2 ∈ tagIds := by
        intro r hr
        have := List.mem_filter.mp hr
        simpa using (decide_eq_true_eq.mp this.2).2
      have hF_snd_nd : (F.map Prod.snd).Nodup := nodup_snd_of_fst_eq F d hF_nd hF_fst
      constructor
      · -- enough rows ⇒ every requested tag is attached to d
        intro hge t ht htn
        have htid : t.id ∈ tagIds := by
          refine List.mem_map.mpr ⟨t, ?_, rfl⟩
          rw [htagRows]
          exact List.mem_filter.mpr ⟨ht, by simpa using htn⟩
        have hsub : (F.map Prod.snd) ⊆ tagIds := by
          intro x hx
          obtain ⟨r, hr, hre⟩ := List.mem_map.mp hx
          exact hre ▸ hF_snd_mem r hr
        have hperm : List.Perm (F.map Prod.snd) tagIds := by
          refine List.Subperm.perm_of_length_le
            (List.subperm_of_subset hF_snd_nd hsub) ?_
          simpa using hge
        have : t.id ∈ F.map Prod.snd := hperm.mem_iff.mpr htid
        obtain ⟨r, hr, hre⟩ := List.mem_map.mp this
        have hrd : r = (d, t.id) := by
          obtain ⟨r1, r2⟩ := r
          have := hF_fst _ hr
          simp only at this hre
          rw [this, hre]
        rw [← hrd]
        exact (List.mem_filter.mp hr).1
      · -- every requested tag attached ⇒ at least |tagIds| rows
        intro hcarry
        have hsub : tagIds ⊆ F.map Prod.snd := by
          intro x hx
          obtain ⟨t, ht, hte⟩ := List.mem_map.mp hx
          have ht1 := List.mem_filter.mp ht
          have : (d, t.id) ∈ rels := hcarry t ht1.1 (by simpa using ht1.2)
          refine List.mem_map.mpr ⟨(d, t.id), ?_, hte⟩
          refine List.mem_filter.mpr ⟨this, ?_⟩
          have hx2 : t.id ∈ tagIds := by rw [hte]; exact hx
          simp [hx2]
        have := (List.subperm_of_subset hids_nd hsub).length_le
        simpa using this

/-- Witness for `tag_filter_and_semantics`: two stored tags, three relation
rows; requesting (un-normalized) "A" and " b" returns exactly the document
carrying both tags. -/
theorem tag_filter_and_semantics_witness :
    ∃ ids, filterDocumentsByTagNames [⟨"t1", "a"⟩, ⟨"t2", "b"⟩]
        [("d1", "t1"), ("d1", "t2"), ("d2", "t1")] ["A", " b", "a"] = some ids ∧
      ∀ d, d ∈ ids ↔
        ∀ t ∈ [(⟨"t1", "a"⟩ : TagRow), ⟨"t2", "b"⟩],
          t.name ∈ normalizedTagList ["A", " b", "a"] →
            (d, t.id) ∈ [("d1", "t1"), ("d1", "t2"), ("d2", "t1")] :=
  (tag_filter_and_semantics [⟨"t1", "a"⟩, ⟨"t2", "b"⟩]
      [("d1", "t1"), ("d1", "t2"), ("d2", "t1")] ["A", " b", "a"]
      (by decide) (by decide) (by decide)).2.2 (by decide) (by decide)

/-! ### Hybrid search engine (`searchDocumentsAction`) -/

/-- The two members of the result-reason set. -/
inductive Reason where
  | keyword
  | semantic
deriving DecidableEq

/-- One value of the per-document accumulation map `scores`. -/
structure ScoreEntry where
  score : Rat
  reasons : List Reason
  snippet : String
  page : Option Nat
deriving DecidableEq

/-- The default taken when `scores.get(...)` is undefined in the semantic
pass: `{ score: 0, reasons: new Set(), snippet: "", page: null }`. -/
def emptyEntry : ScoreEntry :=
  { score := 0, reasons := [], snippet := "", page := none }

/-- `new Set([...reasons, r])`: sets preserve insertion order and ignore
re-insertions. -/
def addReason (rs : List Reason) (r : Reason) : List Reason :=
  if r ∈ rs then rs else rs ++ [r]

/-- `findSnippet` from the actions file: window of 80 characters before and
160 after the first case-insensitive match, falling back to the first 240
characters. -/
def findSnippet (text query : String) : String :=
  if text = "" then ""
  else
    let chars := text.toList
    let lowerQuery := (toLowerStr query).toList
    match firstMatchIdx (toLowerStr text).toList lowerQuery with
    | none => String.mk (chars.take 240)
    | some index =>
      let start := index - 80
      let stop := min chars.length (index + lowerQuery.length + 160)
      String.mk ((chars.drop start).take (stop - start))

/-- A `documents` table row, restricted to the fields the search reads
(`descriptionMd` is nullable: the code reads `doc.descriptionMd ?? ""`). -/
structure SearchDoc where
  id : String
  title : String
  descriptionMd : Option String
deriving DecidableEq

/-- A `document_pages` row. -/
structure DocPageRow where
  documentId : String
  page : Nat
  text : String
deriving DecidableEq

/-- A per-document page after grouping. -/
structure PageRow where
  page : Nat
  text : String
deriving DecidableEq

/-- A `chunks` table row. -/
structure ChunkRow where
  id : String
  documentId : String
  pageStart : Nat
  pageEnd : Nat
  chunkIndex : Nat
  text : String
deriving DecidableEq

/-- `new Map(rows)` from key-value pairs (later pairs win). -/
def mapFromPairs (rows : List (String × String)) : List (String × String) :=
  rows.foldl (fun m r => setEntry m r.1 r.2) []

/-- `values = map.get(k) ?? []; values.push(v); map.set(k, values)`. -/
def appendGroup {α : Type} (m : List (String × List α)) (k : String) (v : α) :
    List (String × List α) :=
  setEntry m k (((lookupEntry m k).getD []) ++ [v])

/-- Stable insertion of a page row into an ascending-by-page list (an
element is placed before the first strictly-larger page, matching
JavaScript's stable `sort((l, r) => l.page - r.page)`). -/
def insertPageAsc (x : PageRow) : List PageRow → List PageRow
  | [] => [x]
  | y :: ys => if y.page < x.page then y :: insertPageAsc x ys else x :: y :: ys

/-- Stable ascending sort by page. -/
def sortPagesAsc : List PageRow → List PageRow
  | [] => []
  | x :: xs => insertPageAsc x (sortPagesAsc xs)

/-- Group the `document_pages` rows by document and sort each group by page
(the `pagesByDoc` map of `searchDocumentsAction`). -/
def groupPages (rows : List DocPageRow) : List (String × List PageRow) :=
  (rows.foldl (fun m r => appendGroup m r.documentId ⟨r.page, r.text⟩) []).map
    (fun kv => (kv.1, sortPagesAsc kv.2))

/-- Group the `(documentId, tagName)` rows by document (the `docTagsByDoc`
map of `searchDocumentsAction`). -/
def groupTags (rows : List (String × String)) : List (String × List String) :=
  rows.foldl (fun m r => appendGroup m r.1 r.2) []

/-- The lowercased haystack of the keyword pass:
`` `${doc.title}\n${description}\n${tagText}\n${fullText}`.toLowerCase() ``. -/
def keywordHaystack (textByDoc : List (String × String))
    (docTagsByDoc : List (String × List String)) (doc : SearchDoc) : String :=
  toLowerStr (doc.title ++ "\n" ++ doc.descriptionMd.getD "" ++ "\n"
    ++ String.intercalate " " ((lookupEntry docTagsByDoc doc.id).getD []) ++ "\n"
    ++ (lookupEntry textByDoc doc.id).getD "")

/-- The entry written for a keyword-matching document: base 10, +20 for a
title match, +8 for a description match, +6 for a tag match, reason
`"keyword"`, snippet from the first matching page (else description +
full text), page of the first matching page (else null). -/
def keywordEntry (textByDoc : List (String × String))
    (pagesByDoc : List (String × List PageRow))
    (docTagsByDoc : List (String × List String))
    (rawQuery normalizedQuery : String) (doc : SearchDoc) : ScoreEntry :=
  let fullText := (lookupEntry textByDoc doc.id).getD ""
  let description := doc.descriptionMd.getD ""
  let tagText := String.intercalate " " ((lookupEntry docTagsByDoc doc.id).getD [])
  let score1 : Rat := 10
  let score2 := if containsSub (toLowerStr doc.title) normalizedQuery
    then score1 + 20 else score1
  let score3 := if containsSub (toLowerStr description) normalizedQuery
    then score2 + 8 else score2
  let score4 := if containsSub (toLowerStr tagText) normalizedQuery
    then score3 + 6 else score3
  let matchedPage := ((lookupEntry pagesByDoc doc.id).getD []).find?
    (fun pr => containsSub (toLowerStr pr.text) normalizedQuery)
  let snippetSource := match matchedPage with
    | some pr => pr.text
    | none => description ++ "\n" ++ fullText
  { score := score4
    reasons := [.keyword]
    snippet := findSnippet snippetSource rawQuery
    page := matchedPage.map PageRow.page }

/-- The keyword-pass loop body for one candidate document: skip it when the
haystack lacks the query, otherwise store its entry. -/
def keywordStep (textByDoc : List (String × String))
    (pagesByDoc : List (String × List PageRow))
    (docTagsByDoc : List (String × List String))
    (rawQuery normalizedQuery : String)
    (sc : List (String × ScoreEntry)) (doc : SearchDoc) :
    List (String × ScoreEntry) :=
  if containsSub (keywordHaystack textByDoc docTagsByDoc doc) normalizedQuery = false
  then sc
  else setEntry sc doc.id
    (keywordEntry textByDoc pagesByDoc docTagsByDoc rawQuery normalizedQuery doc)

/-- The keyword pass of `searchDocumentsAction` over all candidate
documents. -/
def keywordPass (docs : List SearchDoc) (textByDoc : List (String × String))
    (pagesByDoc : List (String × List PageRow))
    (docTagsByDoc : List (String × List String))
    (rawQuery normalizedQuery : String)
    (sc : List (String × ScoreEntry)) : List (String × ScoreEntry) :=
  docs.foldl (keywordStep textByDoc pagesByDoc docTagsByDoc rawQuery normalizedQuery) sc

/-- A vector-query result metadata entry whose `chunkId` is a string
(`none` embeds both an absent metadata object and a non-string
`chunkId`). -/
structure MetaRow where
  chunkId : String
deriving DecidableEq

/-- `Math.max(0, 1 - distance) * 30` — the semantic boost of one vector
result row. -/
def semanticBoost (distance : Rat) : Rat :=
  max 0 (1 - distance) * 30

/-- `filteredDocumentIds && !filteredDocumentIds.includes(documentId)`
makes the row skipped; this is the kept condition. -/
def passesFilter (filtered : Option (List String)) (docId : String) : Bool :=
  match filtered with
  | none => true
  | some ids => ids.contains docId

/-- The body of the semantic pass `forEach`: resolve the chunk by id, apply
the tag filter, default a missing/non-numeric distance to 1, add
`semanticBoost` to the document's score, add the `"semantic"` reason,
replace the snippet when empty or when the score increased by more than 5,
and keep the first known page (falling back to the chunk's start page). -/
def processRow (chunkById : List (String × ChunkRow))
    (filtered : Option (List String)) (sc : List (String × ScoreEntry)) :
    Option MetaRow → Option Rat → List (String × ScoreEntry)
  | none, _ => sc
  | some m, dist =>
    match lookupEntry chunkById m.chunkId with
    | none => sc
    | some chunk =>
      if passesFilter filtered chunk.documentId = false then sc
      else
        let distance := dist.getD 1
        let boost := semanticBoost distance
        let current := (lookupEntry sc chunk.documentId).getD emptyEntry
        let nextScore := current.score + boost
        setEntry sc chunk.documentId
          { score := nextScore
            reasons := addReason current.reasons .semantic
            snippet :=
              if current.snippet = "" ∨ current.score + 5 < nextScore
              then strTake chunk.text 240 else current.snippet
            page :=
              match current.page with
              | some p => some p
              | none => some chunk.pageStart }

/-- The semantic pass: every metadata row is processed with the distance at
the same index (missing or non-numeric entries are `none`). -/
def semanticPass (chunkById : List (String × ChunkRow))
    (filtered : Option (List String)) (metadatas : List (Option MetaRow))
    (distances : List (Option Rat)) (sc : List (String × ScoreEntry)) :
    List (String × ScoreEntry) :=
  metadatas.enum.foldl
    (fun sc1 pair => processRow chunkById filtered sc1 pair.2 (distances.getD pair.1 none))
    sc

/-- A returned search hit. -/
structure DocumentSearchHit where
  documentId : String
  title : String
  page : Option Nat
  score : Rat
  reasons : List Reason
  snippet : String
deriving DecidableEq

/-- Stable insertion into a descending-by-score list (an element is placed
before the first strictly-smaller score, matching JavaScript's stable
`sort((a, b) => b.score - a.score)`). -/
def insertHitDesc (x : DocumentSearchHit) :
    List DocumentSearchHit → List DocumentSearchHit
  | [] => [x]
  | y :: ys => if x.score < y.score then y :: insertHitDesc x ys else x :: y :: ys

/-- Stable descending sort by score. -/
def sortHitsDesc : List DocumentSearchHit → List DocumentSearchHit
  | [] => []
  | x :: xs => insertHitDesc x (sortHitsDesc xs)

/-- Entries → hits: drop entries whose document row is gone, sort by score
descending, truncate to `limit`. -/
def mkHits (docs : List SearchDoc) (limit : Nat)
    (sc : List (String × ScoreEntry)) : List DocumentSearchHit :=
  let docsById := docs.foldl (fun m d => setEntry m d.id d) []
  (sortHitsDesc (sc.filterMap (fun kv =>
    (lookupEntry docsById kv.1).map (fun doc =>
      { documentId := kv.1
        title := doc.title
        page := kv.2.page
        score := kv.2.score
        reasons := kv.2.reasons
        snippet := kv.2.snippet })))).take limit

/-- What the store (SQLite via Drizzle) returned for this search: the tag
filter result and the candidate `documents`, `document_text`,
`document_pages` and tag rows. -/
structure StoreData where
  filteredDocumentIds : Option (List String)
  docs : List SearchDoc
  textRows : List (String × String)
  pageRows : List DocPageRow
  tagRows : List (String × String)

/-- What the semantic dependencies returned when they were reachable: the
vector-query metadata and distance rows and the chunk rows selected for
them. -/
structure SemanticData where
  metadatas : List (Option MetaRow)
  distances : List (Option Rat)
  chunkRows : List ChunkRow

/-- The `ActionState` envelope returned to the caller. -/
structure SearchActionState where
  ok : Bool
  message : String
  data : List DocumentSearchHit
deriving DecidableEq

/-- `searchDocumentsAction` from the actions file.  `store` is the outcome
of the keyword-side database work (`Except.error` embeds a thrown store
failure, caught by the outer `try` and returned as `ok: false`).
`semantic` is the outcome of the semantic pass dependencies: `none` embeds
any throw inside the inner `try` (Chroma health check, query embedding,
vector query, or the chunk-row select) — all of these happen before the
result loop mutates `scores`, so the catch leaves exactly the keyword
scores. -/
def searchDocumentsAction (store : Except String StoreData)
    (semantic : Option SemanticData) (query : String) (limit : Nat) :
    SearchActionState :=
  match store with
  | .error e => { ok := false, message := e, data := [] }
  | .ok sd =>
    let normalizedQuery := toLowerStr (trimStr query)
    if sd.filteredDocumentIds = some [] then
      { ok := true, message := "No matches found.", data := [] }
    else if sd.docs = [] then
      { ok := true, message := "No matches found.", data := [] }
    else
      let textByDoc := mapFromPairs sd.textRows
      let pagesByDoc := groupPages sd.pageRows
      let docTagsByDoc := groupTags sd.tagRows
      let kw := keywordPass sd.docs textByDoc pagesByDoc docTagsByDoc
        query normalizedQuery []
      let finalScores :=
        match semantic with
        | none => kw
        | some sem =>
          semanticPass (sem.chunkRows.foldl (fun m c => setEntry m c.id c) [])
            sd.filteredDocumentIds sem.metadatas sem.distances kw
      let hits := mkHits sd.docs limit finalScores
      if hits = [] then { ok := true, message := "No matches found.", data := [] }
      else
        { ok := true
          message := "Found " ++ toString hits.length ++ " matching document(s)."
          data := hits }

/-! ### Keyword-pass lemmas -/

theorem keywordPass_cons (d : SearchDoc) (rest : List SearchDoc)
    (textByDoc : List (String × String)) (pagesByDoc : List (String × List PageRow))
    (docTagsByDoc : List (String × List String)) (rq nq : String)
    (sc : List (String × ScoreEntry)) :
    keywordPass (d :: rest) textByDoc pagesByDoc docTagsByDoc rq nq sc
      = keywordPass rest textByDoc pagesByDoc docTagsByDoc rq nq
          (keywordStep textByDoc pagesByDoc docTagsByDoc rq nq sc d) := rfl

theorem keywordStep_lookup_ne (textByDoc : List (String × String))
    (pagesByDoc : List (String × List PageRow))
    (docTagsByDoc : List (String × List String)) (rq nq : String)
    (sc : List (String × ScoreEntry)) (doc : SearchDoc) (k : String)
    (hk : k ≠ doc.id) :
    lookupEntry (keywordStep textByDoc pagesByDoc docTagsByDoc rq nq sc doc) k
      = lookupEntry sc k := by
  unfold keywordStep
  by_cases h : containsSub (keywordHaystack textByDoc docTagsByDoc doc) nq = false
  · rw [if_pos h]
  · rw [if_neg h, lookupEntry_setEntry_ne _ _ _ _ (Ne.symm hk)]

theorem keywordPass_lookup_not_mem (docs : List SearchDoc)
    (textByDoc : List (String × String)) (pagesByDoc : List (String × List PageRow))
    (docTagsByDoc : List (String × List String)) (rq nq : String)
    (sc : List (String × ScoreEntry)) (k : String)
    (hk : k ∉ docs.map SearchDoc.id) :
    lookupEntry (keywordPass docs textByDoc pagesByDoc docTagsByDoc rq nq sc) k
      = lookupEntry sc k := by
  induction docs generalizing sc with
  | nil => rfl
  | cons d rest ih =>
    simp only [List.map_cons, List.mem_cons, not_or] at hk
    rw [keywordPass_cons, ih _ hk.2,
      keywordStep_lookup_ne _ _ _ _ _ _ _ _ hk.1]

/-- What the keyword pass stores for each candidate document: nothing when
the haystack lacks the query, the additive entry when it contains it. -/
theorem keywordPass_lookup (docs : List SearchDoc)
    (textByDoc : List (String × String)) (pagesByDoc : List (String × List PageRow))
    (docTagsByDoc : List (String × List String)) (rq nq : String)
    (sc : List (String × ScoreEntry)) (doc : SearchDoc)
    (hnd : (docs.map SearchDoc.id).Nodup) (hdoc : doc ∈ docs) :
    lookupEntry (keywordPass docs textByDoc pagesByDoc docTagsByDoc rq nq sc) doc.id
      = if containsSub (keywordHaystack textByDoc docTagsByDoc doc) nq = true
        then some (keywordEntry textByDoc pagesByDoc docTagsByDoc rq nq doc)
        else lookupEntry sc doc.id := by
  induction docs generalizing sc with
  | nil => cases hdoc
  | cons d rest ih =>
    simp only [List.map_cons, List.nodup_cons] at hnd
    rcases List.mem_cons.mp hdoc with h1 | h1
    · subst h1
      rw [keywordPass_cons, keywordPass_lookup_not_mem _ _ _ _ _ _ _ _ hnd.1]
      unfold keywordStep
      by_cases h : containsSub (keywordHaystack textByDoc docTagsByDoc doc) nq = false
      · rw [if_pos h, if_neg (by simp [h])]
      · rw [if_neg h, lookupEntry_setEntry_self,
          if_pos (by revert h; cases containsSub (keywordHaystack textByDoc docTagsByDoc doc) nq <;> simp)]
    · have hne : doc.id ≠ d.id := by
        intro he
        exact hnd.1 (he ▸ List.mem_map.mpr ⟨doc, h1, rfl⟩)
      rw [keywordPass_cons, ih _ hnd.2 h1,
        keywordStep_lookup_ne _ _ _ _ _ _ _ _ hne]

theorem keywordEntry_reasons (textByDoc : List (String × String))
    (pagesByDoc : List (String × List PageRow))
    (docTagsByDoc : List (String × List String)) (rq nq : String)
    (doc : SearchDoc) :
    (keywordEntry textByDoc pagesByDoc docTagsByDoc rq nq doc).reasons
      = [Reason.keyword] := rfl

theorem keywordEntry_score (textByDoc : List (String × String))
    (pagesByDoc : List (String × List PageRow))
    (docTagsByDoc : List (String × List String)) (rq nq : String)
    (doc : SearchDoc) :
    (keywordEntry textByDoc pagesByDoc docTagsByDoc rq nq doc).score
      = 10
        + (if containsSub (toLowerStr doc.title) nq = true then (20 : Rat) else 0)
        + (if containsSub (toLowerStr (doc.descriptionMd.getD "")) nq = true
            then (8 : Rat) else 0)
        + (if containsSub
              (toLowerStr (String.intercalate " "
                ((lookupEntry docTagsByDoc doc.id).getD []))) nq = true
            then (6 : Rat) else 0) := by
  unfold keywordEntry
  cases h1 : containsSub (toLowerStr doc.title) nq <;>
    cases h2 : containsSub (toLowerStr (doc.descriptionMd.getD "")) nq <;>
    cases h3 : containsSub
      (toLowerStr (String.intercalate " "
        ((lookupEntry docTagsByDoc doc.id).getD []))) nq <;>
    simp [h1, h2, h3]

/-- C2: in the keyword pass, a candidate whose lowercased haystack (title,
description, tag names, full text) lacks the lowercased query gets no
entry; a candidate whose haystack contains it gets score
10 (+20 title) (+8 description) (+6 tag text) with the single reason
`"keyword"`. -/
theorem keyword_pass_scoring (docs : List SearchDoc)
    (textByDoc : List (String × String)) (pagesByDoc : List (String × List PageRow))
    (docTagsByDoc : List (String × List String)) (rawQuery normalizedQuery : String)
    (doc : SearchDoc)
    (hnd : (docs.map SearchDoc.id).Nodup) (hdoc : doc ∈ docs) :
    (containsSub (keywordHaystack textByDoc docTagsByDoc doc) normalizedQuery = false →
      lookupEntry (keywordPass docs textByDoc pagesByDoc docTagsByDoc
        rawQuery normalizedQuery []) doc.id = none) ∧
    (containsSub (keywordHaystack textByDoc docTagsByDoc doc) normalizedQuery = true →
      ∃ e, lookupEntry (keywordPass docs textByDoc pagesByDoc docTagsByDoc
          rawQuery normalizedQuery []) doc.id = some e ∧
        e.reasons = [Reason.keyword] ∧
        e.score = 10
          + (if containsSub (toLowerStr doc.title) normalizedQuery = true
              then (20 : Rat) else 0)
          + (if containsSub (toLowerStr (doc.descriptionMd.getD "")) normalizedQuery = true
              then (8 : Rat) else 0)
          + (if containsSub
                (toLowerStr (String.intercalate " "
                  ((lookupEntry docTagsByDoc doc.id).getD []))) normalizedQuery = true
              then (6 : Rat) else 0)) := by
  have hl := keywordPass_lookup docs textByDoc pagesByDoc docTagsByDoc
    rawQuery normalizedQuery [] doc hnd hdoc
  constructor
  · intro h
    rw [hl, if_neg (by simp [h]), lookupEntry]
  · intro h
    rw [hl, if_pos h]
    exact ⟨_, rfl,
      keywordEntry_reasons textByDoc pagesByDoc docTagsByDoc rawQuery normalizedQuery doc,
      keywordEntry_score textByDoc pagesByDoc docTagsByDoc rawQuery normalizedQuery doc⟩

/-- Witness for `keyword_pass_scoring`: two candidate documents and the
query "risk", instantiated at the matching document. -/
theorem keyword_pass_scoring_witness :
    (containsSub (keywordHaystack [("d1", "risk body")] []
        ⟨"d1", "Risk Report", none⟩) "risk" = false →
      lookupEntry (keywordPass [⟨"d1", "Risk Report", none⟩, ⟨"d2", "Other", none⟩]
        [("d1", "risk body")] [] [] "risk" "risk" [])
        (SearchDoc.id ⟨"d1", "Risk Report", none⟩) = none) ∧
    (containsSub (keywordHaystack [("d1", "risk body")] []
        ⟨"d1", "Risk Report", none⟩) "risk" = true →
      ∃ e, lookupEntry (keywordPass [⟨"d1", "Risk Report", none⟩, ⟨"d2", "Other", none⟩]
          [("d1", "risk body")] [] [] "risk" "risk" [])
          (SearchDoc.id ⟨"d1", "Risk Report", none⟩) = some e ∧
        e.reasons = [Reason.keyword] ∧
        e.score = 10
          + (if containsSub (toLowerStr (SearchDoc.title ⟨"d1", "Risk Report", none⟩))
                "risk" = true then (20 : Rat) else 0)
          + (if containsSub (toLowerStr ((Option.none : Option String).getD ""))
                "risk" = true then (8 : Rat) else 0)
          + (if containsSub (toLowerStr (String.intercalate " "
                ((lookupEntry ([] : List (String × List String))
                  (SearchDoc.id ⟨"d1", "Risk Report", none⟩)).getD [])))
                "risk" = true then (6 : Rat) else 0)) :=
  keyword_pass_scoring [⟨"d1", "Risk Report", none⟩, ⟨"d2", "Other", none⟩]
    [("d1", "risk body")] [] [] "risk" "risk" ⟨"d1", "Risk Report", none⟩
    (by decide) (by decide)

/-! ### Semantic-pass lemmas -/

/-- Reducing `processRow` on a row that resolves and passes the filter. -/
theorem processRow_eq (chunkById : List (String × ChunkRow))
    (filtered : Option (List String)) (sc : List (String × ScoreEntry))
    (m : MetaRow) (chunk : ChunkRow) (dist : Option Rat)
    (hchunk : lookupEntry chunkById m.chunkId = some chunk)
    (hfilt : passesFilter filtered chunk.documentId = true) :
    processRow chunkById filtered sc (some m) dist
      = setEntry sc chunk.documentId
          { score := ((lookupEntry sc chunk.documentId).getD emptyEntry).score
              + semanticBoost (dist.getD 1)
            reasons := addReason
              ((lookupEntry sc chunk.documentId).getD emptyEntry).reasons .semantic
            snippet :=
              if ((lookupEntry sc chunk.documentId).getD emptyEntry).snippet = ""
                  ∨ ((lookupEntry sc chunk.documentId).getD emptyEntry).score + 5
                    < ((lookupEntry sc chunk.documentId).getD emptyEntry).score
                      + semanticBoost (dist.getD 1)
              then strTake chunk.text 240
              else ((lookupEntry sc chunk.documentId).getD emptyEntry).snippet
            page :=
              match ((lookupEntry sc chunk.documentId).getD emptyEntry).page with
              | some p => some p
              | none => some chunk.pageStart } := by
  simp only [processRow, hchunk]
  rw [if_neg (by simp [hfilt])]

/-- C3: each processed vector row adds exactly
`semanticBoost distance = max(0, 1 - distance) * 30` to its document's
score; the boost is antitone in the distance, zero from distance 1 on, and
30 at distance 0. -/
theorem semantic_boost_per_row (chunkById : List (String × ChunkRow))
    (filtered : Option (List String)) (sc : List (String × ScoreEntry))
    (m : MetaRow) (chunk : ChunkRow) (dist : Option Rat)
    (hchunk : lookupEntry chunkById m.chunkId = some chunk)
    (hfilt : passesFilter filtered chunk.documentId = true) :
    (∃ e, lookupEntry (processRow chunkById filtered sc (some m) dist)
        chunk.documentId = some e ∧
      e.score = ((lookupEntry sc chunk.documentId).getD emptyEntry).score
        + semanticBoost (dist.getD 1)) ∧
    (∀ d1 d2 : Rat, d1 ≤ d2 → semanticBoost d2 ≤ semanticBoost d1) ∧
    (∀ d : Rat, 1 ≤ d → semanticBoost d = 0) ∧
    semanticBoost 0 = 30 := by
  refine ⟨?_, ?_, ?_, ?_⟩
  · rw [processRow_eq chunkById filtered sc m chunk dist hchunk hfilt,
      lookupEntry_setEntry_self]
    exact ⟨_, rfl, rfl⟩
  · intro d1 d2 h
    unfold semanticBoost
    have hmax : max 0 (1 - d2) ≤ max 0 (1 - d1) :=
      max_le_max (le_refl 0) (by linarith)
    have h30 : (0 : Rat) ≤ 30 := by norm_num
    exact mul_le_mul_of_nonneg_right hmax h30
  · intro d hd
    unfold semanticBoost
    rw [max_eq_left (by linarith), zero_mul]
  · unfold semanticBoost
    norm_num

/-- Witness for `semantic_boost_per_row` at a single concrete row of
distance one half. -/
theorem semantic_boost_per_row_witness :
    (∃ e, lookupEntry (processRow [("c1", ⟨"c1", "d1", 2, 3, 0, "chunk text"⟩)]
        none [] (some ⟨"c1"⟩) (some (1/2)))
        (ChunkRow.documentId ⟨"c1", "d1", 2, 3, 0, "chunk text"⟩) = some e ∧
      e.score = ((lookupEntry ([] : List (String × ScoreEntry))
          (ChunkRow.documentId ⟨"c1", "d1", 2, 3, 0, "chunk text"⟩)).getD emptyEntry).score
        + semanticBoost ((some ((1 : Rat)/2)).getD 1)) ∧
    (∀ d1 d2 : Rat, d1 ≤ d2 → semanticBoost d2 ≤ semanticBoost d1) ∧
    (∀ d : Rat, 1 ≤ d → semanticBoost d = 0) ∧
    semanticBoost 0 = 30 :=
  semantic_boost_per_row [("c1", ⟨"c1", "d1", 2, 3, 0, "chunk text"⟩)] none []
    ⟨"c1"⟩ ⟨"c1", "d1", 2, 3, 0, "chunk text"⟩ (some (1/2)) (by decide) (by decide)

/-- C9 counterexample: a vector row at distance 1 (zero boost) for a
document with no prior entry — the updated score, 0, does not exceed the
previous recorded score, 0, by more than 5, yet the stored snippet is
replaced by the chunk text instead of being kept. -/
theorem snippet_update_cex :
    lookupEntry (processRow [("c1", ⟨"c1", "d1", 1, 1, 0, "hello world"⟩)] none []
        (some ⟨"c1"⟩) (some 1)) "d1"
      = some ⟨0, [.semantic], "hello world", some 1⟩ ∧
    ¬ ((0 : Rat) + 5 < 0 + semanticBoost 1) ∧
    ("hello world" : String) ≠ "" := by
  refine ⟨by with_unfolding_all decide, by with_unfolding_all decide, by decide⟩

/-- C9 (amended): a processed row replaces its document's stored snippet by
the chunk text truncated to 240 characters when the previously stored
snippet is empty (in particular when the document had no entry yet) OR when
the updated score exceeds the previous recorded score by more than 5;
otherwise — previous snippet non-empty and score delta at most 5 — the
previous snippet is kept. -/
theorem snippet_update_rule (chunkById : List (String × ChunkRow))
    (filtered : Option (List String)) (sc : List (String × ScoreEntry))
    (m : MetaRow) (chunk : ChunkRow) (dist : Option Rat)
    (hchunk : lookupEntry chunkById m.chunkId = some chunk)
    (hfilt : passesFilter filtered chunk.documentId = true) :
    ∃ e, lookupEntry (processRow chunkById filtered sc (some m) dist)
        chunk.documentId = some e ∧
      e.snippet =
        (if ((lookupEntry sc chunk.documentId).getD emptyEntry).snippet = ""
            ∨ ((lookupEntry sc chunk.documentId).getD emptyEntry).score + 5
              < ((lookupEntry sc chunk.documentId).getD emptyEntry).score
                + semanticBoost (dist.getD 1)
          then strTake chunk.text 240
          else ((lookupEntry sc chunk.documentId).getD emptyEntry).snippet) ∧
      (((lookupEntry sc chunk.documentId).getD emptyEntry).snippet ≠ "" →
        ¬ (((lookupEntry sc chunk.documentId).getD emptyEntry).score + 5
            < ((lookupEntry sc chunk.documentId).getD emptyEntry).score
              + semanticBoost (dist.getD 1)) →
        e.snippet = ((lookupEntry sc chunk.documentId).getD emptyEntry).snippet) := by
  rw [processRow_eq chunkById filtered sc m chunk dist hchunk hfilt,
    lookupEntry_setEntry_self]
  refine ⟨_, rfl, rfl, ?_⟩
  intro hsnip hdelta
  rw [if_neg]
  rintro (h | h)
  · exact hsnip h
  · exact hdelta h

/-- Witness for `snippet_update_rule`: one concrete row whose document
already carries a non-empty snippet. -/
theorem snippet_update_rule_witness :
    ∃ e, lookupEntry (processRow [("c1", ⟨"c1", "d1", 1, 1, 0, "hello world"⟩)]
        none [("d1", ⟨40, [.keyword], "old snippet", some 2⟩)]
        (some ⟨"c1"⟩) (some 1))
        (ChunkRow.documentId ⟨"c1", "d1", 1, 1, 0, "hello world"⟩) = some e ∧
      e.snippet =
        (if ((lookupEntry [("d1", (⟨40, [.keyword], "old snippet", some 2⟩ : ScoreEntry))]
              (ChunkRow.documentId ⟨"c1", "d1", 1, 1, 0, "hello world"⟩)).getD emptyEntry).snippet = ""
            ∨ ((lookupEntry [("d1", (⟨40, [.keyword], "old snippet", some 2⟩ : ScoreEntry))]
                (ChunkRow.documentId ⟨"c1", "d1", 1, 1, 0, "hello world"⟩)).getD emptyEntry).score + 5
              < ((lookupEntry [("d1", (⟨40, [.keyword], "old snippet", some 2⟩ : ScoreEntry))]
                  (ChunkRow.documentId ⟨"c1", "d1", 1, 1, 0, "hello world"⟩)).getD emptyEntry).score
                + semanticBoost ((some (1 : Rat)).getD 1)
          then strTake (ChunkRow.text ⟨"c1", "d1", 1, 1, 0, "hello world"⟩) 240
          else ((lookupEntry [("d1", (⟨40, [.keyword], "old snippet", some 2⟩ : ScoreEntry))]
              (ChunkRow.documentId ⟨"c1", "d1", 1, 1, 0, "hello world"⟩)).getD emptyEntry).snippet) ∧
      (((lookupEntry [("d1", (⟨40, [.keyword], "old snippet", some 2⟩ : ScoreEntry))]
            (ChunkRow.documentId ⟨"c1", "d1", 1, 1, 0, "hello world"⟩)).getD emptyEntry).snippet ≠ "" →
        ¬ (((lookupEntry [("d1", (⟨40, [.keyword], "old snippet", some 2⟩ : ScoreEntry))]
              (ChunkRow.documentId ⟨"c1", "d1", 1, 1, 0, "hello world"⟩)).getD emptyEntry).score + 5
            < ((lookupEntry [("d1", (⟨40, [.keyword], "old snippet", some 2⟩ : ScoreEntry))]
                (ChunkRow.documentId ⟨"c1", "d1", 1, 1, 0, "hello world"⟩)).getD emptyEntry).score
              + semanticBoost ((some (1 : Rat)).getD 1)) →
        e.snippet = ((lookupEntry [("d1", (⟨40, [.keyword], "old snippet", some 2⟩ : ScoreEntry))]
            (ChunkRow.documentId ⟨"c1", "d1", 1, 1, 0, "hello world"⟩)).getD emptyEntry).snippet) :=
  snippet_update_rule [("c1", ⟨"c1", "d1", 1, 1, 0, "hello world"⟩)] none
    [("d1", ⟨40, [.keyword], "old snippet", some 2⟩)] ⟨"c1"⟩
    ⟨"c1", "d1", 1, 1, 0, "hello world"⟩ (some 1) (by decide) (by decide)

/-- C10: a vector row whose distance entry is absent or not a number is
treated as distance 1, contributing boost `semanticBoost 1 = 0`, while the
document is still entered with reason `"semantic"`; concretely, a search
whose only signal is such a row returns that document as a hit with score 0
and reasons `["semantic"]`. -/
theorem missing_distance_semantic_entry :
    (∀ (chunkById : List (String × ChunkRow)) (filtered : Option (List String))
        (sc : List (String × ScoreEntry)) (m : MetaRow) (chunk : ChunkRow),
      lookupEntry chunkById m.chunkId = some chunk →
      passesFilter filtered chunk.documentId = true →
      ∃ e, lookupEntry (processRow chunkById filtered sc (some m) none)
          chunk.documentId = some e ∧
        e.score = ((lookupEntry sc chunk.documentId).getD emptyEntry).score
          + semanticBoost 1 ∧
        semanticBoost 1 = 0 ∧
        Reason.semantic ∈ e.reasons) ∧
    searchDocumentsAction (Except.ok
        { filteredDocumentIds := none
          docs := [⟨"d1", "Alpha", none⟩]
          textRows := []
          pageRows := []
          tagRows := [] })
        (some { metadatas := [some ⟨"c1"⟩]
                distances := []
                chunkRows := [⟨"c1", "d1", 1, 1, 0, "chunk words"⟩] }) "zzz" 20
      = { ok := true
          message := "Found 1 matching document(s)."
          data := [⟨"d1", "Alpha", some 1, 0, [.semantic], "chunk words"⟩] } := by
  constructor
  · intro chunkById filtered sc m chunk hchunk hfilt
    rw [processRow_eq chunkById filtered sc m chunk none hchunk hfilt,
      lookupEntry_setEntry_self]
    refine ⟨_, rfl, rfl, ?_, ?_⟩
    · unfold semanticBoost
      norm_num
    · unfold addReason
      by_cases h : Reason.semantic ∈ ((lookupEntry sc chunk.documentId).getD emptyEntry).reasons
      · rw [if_pos h]
        exact h
      · rw [if_neg h]
        simp
  · with_unfolding_all decide

/-! ### Graceful degradation of the semantic pass -/

theorem mem_insertHitDesc (x y : DocumentSearchHit) (l : List DocumentSearchHit)
    (h : y ∈ insertHitDesc x l) : y = x ∨ y ∈ l := by
  induction l with
  | nil => simpa [insertHitDesc] using h
  | cons z zs ih =>
    unfold insertHitDesc at h
    by_cases hc : x.score < z.score
    · rw [if_pos hc] at h
      rcases List.mem_cons.mp h with h1 | h1
      · exact Or.inr (by simp [h1])
      · rcases ih h1 with h2 | h2
        · exact Or.inl h2
        · exact Or.inr (List.mem_cons_of_mem _ h2)
    · rw [if_neg hc] at h
      rcases List.mem_cons.mp h with h1 | h1
      · exact Or.inl h1
      · exact Or.inr h1

theorem mem_sortHitsDesc (y : DocumentSearchHit) (l : List DocumentSearchHit)
    (h : y ∈ sortHitsDesc l) : y ∈ l := by
  induction l with
  | nil => exact h
  | cons z zs ih =>
    unfold sortHitsDesc at h
    rcases mem_insertHitDesc z y _ h with h1 | h1
    · simp [h1]
    · exact List.mem_cons_of_mem _ (ih h1)

/-- Every returned hit carries exactly the fields of the map entry stored
for its document. -/
theorem mem_mkHits (docs : List SearchDoc) (limit : Nat)
    (sc : List (String × ScoreEntry)) (h : DocumentSearchHit)
    (hnd : (sc.map Prod.fst).Nodup) (hmem : h ∈ mkHits docs limit sc) :
    ∃ e, lookupEntry sc h.documentId = some e ∧ h.score = e.score ∧
      h.reasons = e.reasons ∧ h.snippet = e.snippet ∧ h.page = e.page := by
  unfold mkHits at hmem
  have h1 := List.mem_of_mem_take hmem
  have h2 := mem_sortHitsDesc _ _ h1
  obtain ⟨kv, hkv, hfa⟩ := List.mem_filterMap.mp h2
  obtain ⟨doc, hdoc, hde⟩ := Option.map_eq_some'.mp hfa
  rw [← hde]
  exact ⟨kv.2, lookupEntry_of_mem sc hnd kv hkv, rfl, rfl, rfl, rfl⟩

/-- Every entry the keyword pass adds has exactly the reason set
`{"keyword"}`. -/
theorem keywordPass_entry_source (docs : List SearchDoc)
    (textByDoc : List (String × String)) (pagesByDoc : List (String × List PageRow))
    (docTagsByDoc : List (String × List String)) (rq nq : String)
    (sc : List (String × ScoreEntry)) (kv : String × ScoreEntry)
    (hkv : kv ∈ keywordPass docs textByDoc pagesByDoc docTagsByDoc rq nq sc) :
    kv ∈ sc ∨ kv.2.reasons = [Reason.keyword] := by
  induction docs generalizing sc with
  | nil => exact Or.inl hkv
  | cons d rest ih =>
    rw [keywordPass_cons] at hkv
    rcases ih _ hkv with h1 | h1
    · unfold keywordStep at h1
      by_cases hc : containsSub (keywordHaystack textByDoc docTagsByDoc d) nq = false
      · rw [if_pos hc] at h1
        exact Or.inl h1
      · rw [if_neg hc] at h1
        rcases mem_setEntry _ _ _ _ h1 with h2 | h2
        · right
          rw [h2]
          rfl
        · exact Or.inl h2
    · exact Or.inr h1

theorem keywordPass_nodupKeys (docs : List SearchDoc)
    (textByDoc : List (String × String)) (pagesByDoc : List (String × List PageRow))
    (docTagsByDoc : List (String × List String)) (rq nq : String)
    (sc : List (String × ScoreEntry)) (h : (sc.map Prod.fst).Nodup) :
    ((keywordPass docs textByDoc pagesByDoc docTagsByDoc rq nq sc).map Prod.fst).Nodup := by
  induction docs generalizing sc with
  | nil => exact h
  | cons d rest ih =>
    rw [keywordPass_cons]
    apply ih
    unfold keywordStep
    by_cases hc : containsSub (keywordHaystack textByDoc docTagsByDoc d) nq = false
    · rw [if_pos hc]
      exact h
    · rw [if_neg hc]
      exact nodupKeys_setEntry _ _ _ h

/-- Any search with reachable store data succeeds, whatever the semantic
pass did. -/
theorem searchDocumentsAction_ok (sd : StoreData) (semantic : Option SemanticData)
    (query : String) (limit : Nat) :
    (searchDocumentsAction (Except.ok sd) semantic query limit).ok = true := by
  simp only [searchDocumentsAction]
  split_ifs <;> rfl

/-- With a failed semantic pass the data is either empty or exactly the
hits built from the keyword map. -/
theorem searchDocumentsAction_none_data (sd : StoreData) (query : String)
    (limit : Nat) :
    (searchDocumentsAction (Except.ok sd) none query limit).data = [] ∨
    (searchDocumentsAction (Except.ok sd) none query limit).data
      = mkHits sd.docs limit (keywordPass sd.docs (mapFromPairs sd.textRows)
          (groupPages sd.pageRows) (groupTags sd.tagRows) query
          (toLowerStr (trimStr query)) []) := by
  simp only [searchDocumentsAction]
  split_ifs <;> simp

/-- C5: when the semantic pass fails (embedded as `semantic = none`, since
every failure point of the inner `try` precedes any mutation of the scores
map), the search still succeeds and every returned hit is a keyword-pass
hit unchanged, carrying only the `"keyword"` reason; a store (keyword-pass)
failure, by contrast, fails the whole search. -/
theorem search_degrades_to_keyword_only (sd : StoreData) (query : String)
    (limit : Nat) (emsg : String) (sem2 : Option SemanticData) :
    (searchDocumentsAction (Except.ok sd) none query limit).ok = true ∧
    (∀ h ∈ (searchDocumentsAction (Except.ok sd) none query limit).data,
      h.reasons = [Reason.keyword] ∧
      ∃ e, lookupEntry (keywordPass sd.docs (mapFromPairs sd.textRows)
          (groupPages sd.pageRows) (groupTags sd.tagRows) query
          (toLowerStr (trimStr query)) []) h.documentId = some e ∧
        h.score = e.score ∧ h.snippet = e.snippet ∧ h.page = e.page) ∧
    (searchDocumentsAction (Except.error emsg) sem2 query limit).ok = false ∧
    (searchDocumentsAction (Except.error emsg) sem2 query limit).data = [] := by
  refine ⟨searchDocumentsAction_ok sd none query limit, ?_, rfl, rfl⟩
  intro h hmem
  rcases searchDocumentsAction_none_data sd query limit with hd | hd
  · rw [hd] at hmem
    cases hmem
  · rw [hd] at hmem
    have hnd := keywordPass_nodupKeys sd.docs (mapFromPairs sd.textRows)
      (groupPages sd.pageRows) (groupTags sd.tagRows) query
      (toLowerStr (trimStr query)) [] (by simp)
    obtain ⟨e, he, hs, hr, hsn, hp⟩ := mem_mkHits sd.docs limit _ h hnd hmem
    have hm := lookupEntry_mem _ h.documentId e he
    rcases keywordPass_entry_source sd.docs (mapFromPairs sd.textRows)
      (groupPages sd.pageRows) (groupTags sd.tagRows) query
      (toLowerStr (trimStr query)) [] (h.documentId, e) hm with h1 | h1
    · cases h1
    · exact ⟨hr.trans h1, e, he, hs, hsn, hp⟩

end DocResearch
